import Mathlib

/-!
# Embedding of the parallel-processing scheduler

Shallow embedding of `src/refactoring/parallel_processing.py`
(`ParallelProcessingSystem`): task registration (`decompose_task` with a
caller-supplied subtask list, the external Decomposer of the design),
execution (`execute_task` / `_process_task_queue` / `_queue_subtask` /
`_queue_dependent_subtasks`), status and results reporting
(`get_task_status`, `get_task_results`) and cancellation (`cancel_task`),
modelled as explicit state passing over `SchedState`.

The external Executor (`_execute_subtask`) is modelled by a boolean oracle
`ex : Subtask → Bool` (`true` = the call returns a result, `false` = it
raises): the scheduler's control flow depends only on whether the call
raises, and the Python `_execute_subtask` is a fixed function of the
subtask, so one fixed oracle per run is faithful.

Timestamps (`_get_timestamp`) are passed in as a `now : Nat` argument of
each operation.  Python floats (`progress`) are modelled as `ℚ`: the only
comparisons the code makes are `== 1.0` and the ratio itself, exact at the
small ratios involved.

Python dictionaries are modelled as association lists with the exact
Python semantics: assignment updates in place when the key exists and
appends otherwise (`dictInsert`); dict comprehensions keep the first
occurrence of a key and the last value (`initResults`, `depsOf`).  The
`task_dependencies` map is written once per task at registration from the
very subtask list stored in `active_tasks` and the subtask list is never
mutated afterwards, so the map is derived (`depsOf`) instead of being a
separate state component.  Python sets (`completed_tasks`, `failed_tasks`)
are lists used only through membership; prepend-if-absent (`setAdd`)
matches `set.add`.
-/

namespace PPS

/-- A subtask as returned by the (external) decomposer: its id, the list of
dependency ids (`subtask.get('dependencies', [])`), and an opaque action tag
consumed only by the executor oracle. -/
structure Subtask where
  id : Nat
  deps : List Nat
  action : Nat
deriving DecidableEq, Repr

/-- A per-subtask result slot of `task_results[task_id]`: Python `None`
(pending), a success dict, or the `{'status': 'error', ...}` dict written
when the executor raises. -/
inductive ResultEntry where
  | pending
  | success
  | failure
deriving DecidableEq, Repr

/-- The task `status` strings of `active_tasks[task_id]['status']`. -/
inductive TaskStatus where
  | decomposed
  | executing
  | completed
  | cancelled
deriving DecidableEq, Repr

/-- One entry of `active_tasks`. -/
structure TaskInfo where
  subtasks : List Subtask
  status : TaskStatus
  progress : ℚ
  startTime : Nat
  endTime : Option Nat
deriving DecidableEq, Repr

/-- One entry of `task_queue`; `subtask_id` is always `subtask['id']`
(`_queue_subtask`) and is therefore not a separate field. -/
structure QueueItem where
  taskId : Nat
  subtask : Subtask
  queuedTime : Nat
deriving DecidableEq, Repr

/-- `task_results[task_id]`: a Python dict from subtask id to result slot. -/
abbrev ResultMap := List (Nat × ResultEntry)

/-- Python dict assignment `m[k] = v`: update in place when the key exists,
append otherwise. -/
def dictInsert (k : Nat) (v : α) : List (Nat × α) → List (Nat × α)
  | [] => [(k, v)]
  | p :: rest => if p.1 = k then (k, v) :: rest else p :: dictInsert k v rest

/-- Python dict lookup `m.get(k)` (keys are unique in every dict the code
builds, so first match is the association). -/
def dictGet (k : Nat) : List (Nat × α) → Option α
  | [] => none
  | p :: rest => if p.1 = k then some p.2 else dictGet k rest

/-- Keys of a dict built by comprehension: first occurrence of each key. -/
def dedupKeys : List Nat → List Nat
  | [] => []
  | x :: xs => x :: (dedupKeys xs).filter (fun y => decide (y ≠ x))

/-- `{subtask['id']: None for subtask in subtasks}` of `decompose_task`. -/
def initResults (subs : List Subtask) : ResultMap :=
  (dedupKeys (subs.map (·.id))).map (fun k => (k, ResultEntry.pending))

/-- `self.task_dependencies[task_id][sid]`: the dict comprehension of
`decompose_task` keeps the last subtask with a given id, and every id looked
up comes from the stored subtask list, so a default `[]` is never reached. -/
def depsOf (subs : List Subtask) (sid : Nat) : List Nat :=
  ((subs.reverse.find? (fun st => st.id == sid)).map (·.deps)).getD []

/-- Python `set.add`. -/
def setAdd (x : Nat) (l : List Nat) : List Nat :=
  if x ∈ l then l else x :: l

/-- The whole `ParallelProcessingSystem` instance state. -/
@[ext]
structure SchedState where
  maxParallel : Nat
  tasks : Nat → Option TaskInfo
  results : Nat → Option ResultMap
  queue : List QueueItem
  completedTasks : List Nat
  failedTasks : List Nat

/-- Fresh instance (`__init__`). -/
def initState (maxP : Nat) : SchedState :=
  { maxParallel := maxP, tasks := fun _ => none, results := fun _ => none
    queue := [], completedTasks := [], failedTasks := [] }

/-- The ids of the subtasks currently sitting in the queue
(`item['subtask_id'] for item in self.task_queue`). -/
def queuedIds (s : SchedState) : List Nat :=
  s.queue.map (fun it => it.subtask.id)

/-- The result slot of subtask `sid` inside task `t`'s result store. -/
def entryOf (s : SchedState) (t : Nat) (sid : Nat) : Option ResultEntry :=
  dictGet sid ((s.results t).getD [])

/-- Return value of `execute_task` / `_process_task_queue`. -/
inductive ExecView where
  | notFound
  | running (queued : Nat) (executed : Nat)
deriving DecidableEq, Repr

/-- Return value of `get_task_status`. -/
inductive StatusView where
  | notFound
  | found (status : TaskStatus) (progress : ℚ) (startTime : Nat)
      (endTime : Option Nat) (completedSubtasks : Nat) (totalSubtasks : Nat)
      (failedSubtasks : Nat)
deriving DecidableEq, Repr

def StatusView.statusOf : StatusView → Option TaskStatus
  | .notFound => none
  | .found st _ _ _ _ _ _ => some st

def StatusView.progressOf : StatusView → Option ℚ
  | .notFound => none
  | .found _ pr _ _ _ _ _ => some pr

def StatusView.failedOf : StatusView → Option Nat
  | .notFound => none
  | .found _ _ _ _ _ _ f => some f

/-- Return value of `get_task_results`. -/
inductive ResultsView where
  | notFound
  | stillPending (status : TaskStatus) (progress : ℚ)
  | done (executionTime : Option Nat) (subtaskResults : ResultMap)
      (failedSubtasks : List Nat)
deriving DecidableEq, Repr

/-- Return value of `cancel_task`. -/
inductive CancelView where
  | notFound
  | alreadyCompleted
  | cancelled
deriving DecidableEq, Repr

/-- `active_tasks[tid] = info`. -/
def updTask (tid : Nat) (info : TaskInfo) (s : SchedState) : SchedState :=
  { s with tasks := fun t => if t = tid then some info else s.tasks t }

/-- `task_results[tid] = rm`. -/
def updResults (tid : Nat) (rm : ResultMap) (s : SchedState) : SchedState :=
  { s with results := fun t => if t = tid then some rm else s.results t }

/-- `task_results[tid][sid] = e` (the key is always present for the states
the code reaches, but Python dict assignment would also add it). -/
def writeEntry (tid : Nat) (sid : Nat) (e : ResultEntry) (s : SchedState) :
    SchedState :=
  updResults tid (dictInsert sid e ((s.results tid).getD [])) s

/-- `decompose_task`: register the task (the generated `task_id` is the
argument `tid`; the subtask list is what the internal or external decomposer
returned).  No validation of any kind is performed. -/
def decomposeTask (tid : Nat) (subs : List Subtask) (now : Nat)
    (s : SchedState) : SchedState :=
  updResults tid (initResults subs)
    (updTask tid { subtasks := subs, status := .decomposed, progress := 0,
                   startTime := now, endTime := none } s)

/-- `_queue_subtask`. -/
def queueSubtask (tid : Nat) (st : Subtask) (now : Nat) (s : SchedState) :
    SchedState :=
  { s with queue := s.queue ++ [⟨tid, st, now⟩] }

/-- The loop body of `_queue_dependent_subtasks` for one scanned subtask. -/
def qdStep (subs : List Subtask) (tid : Nat) (now : Nat)
    (acc : SchedState) (st : Subtask) : SchedState :=
  if st.id ∈ acc.completedTasks ∨ st.id ∈ acc.failedTasks ∨
      st.id ∈ queuedIds acc then acc
  else if (depsOf subs st.id).all
      (fun d => decide (d ∈ acc.completedTasks)) then
    queueSubtask tid st now acc
  else acc

/-- `_queue_dependent_subtasks`: scan every subtask of the task, skip the
ones already completed, failed, or queued (by id, across the whole queue),
and enqueue those whose dependency ids are all in the global
`completed_tasks` set.  The `completed_subtask_id` argument is unused by the
Python body as well. -/
def queueDependentSubtasks (tid : Nat) (_completedSid : Nat) (now : Nat)
    (s : SchedState) : SchedState :=
  match s.tasks tid with
  | none => s
  | some info => info.subtasks.foldl (qdStep info.subtasks tid now) s

/-- One iteration of the dispatch loop of `_process_task_queue`: run the
executor inside the failure boundary; on return, write the success entry,
add the id to `completed_tasks` and queue dependents; on raise, add the id
to `failed_tasks` and write the error entry. -/
def execOne (ex : Subtask → Bool) (now : Nat) (item : QueueItem)
    (s : SchedState) : SchedState :=
  if ex item.subtask then
    let s1 := writeEntry item.taskId item.subtask.id .success s
    let s2 := { s1 with
      completedTasks := setAdd item.subtask.id s1.completedTasks }
    queueDependentSubtasks item.taskId item.subtask.id now s2
  else
    let s1 := writeEntry item.taskId item.subtask.id .failure s
    { s1 with failedTasks := setAdd item.subtask.id s1.failedTasks }

/-- The dispatch loop over the snapshot `queue_to_process[:max_parallel_tasks]`
(computed once, unaffected by the enqueues the loop itself performs). -/
def processLoop (ex : Subtask → Bool) (now : Nat) :
    List QueueItem → SchedState → SchedState
  | [], s => s
  | it :: rest, s => processLoop ex now rest (execOne ex now it s)

/-- `list.remove(item)`: drop the first occurrence equal to the item. -/
def eraseItem (x : QueueItem) : List QueueItem → List QueueItem
  | [] => []
  | y :: ys => if y = x then ys else y :: eraseItem x ys

/-- Removal of the executed items after the loop. -/
def removeAll (items : List QueueItem) (q : List QueueItem) :
    List QueueItem :=
  items.foldl (fun acc it => eraseItem it acc) q

/-- The snapshot `queue_to_process[:max_parallel_tasks]`. -/
def snapOf (tidFilter : Option Nat) (s : SchedState) : List QueueItem :=
  (match tidFilter with
    | some tid => s.queue.filter (fun (it : QueueItem) => decide (it.taskId = tid))
    | none => s.queue).take s.maxParallel

/-- `_process_task_queue`: take the (optionally task-filtered) snapshot of at
most `max_parallel_tasks` items, execute each, then remove the executed items
from the queue; report the remaining queue length and the executed count. -/
def processTaskQueue (ex : Subtask → Bool) (tidFilter : Option Nat)
    (now : Nat) (s : SchedState) : SchedState × ExecView :=
  let snap := snapOf tidFilter s
  let s1 := processLoop ex now snap s
  let s2 := { s1 with queue := removeAll snap s1.queue }
  (s2, .running s2.queue.length snap.length)

/-- `execute_task`: error on an unknown id; otherwise set the status to
`executing` unconditionally, enqueue every subtask whose dependency list is
empty, and run one round of `_process_task_queue` filtered to this task. -/
def executeTask (ex : Subtask → Bool) (tid : Nat) (now : Nat)
    (s : SchedState) : SchedState × ExecView :=
  match s.tasks tid with
  | none => (s, .notFound)
  | some info =>
    let s1 := updTask tid { info with status := .executing } s
    let s2 := (info.subtasks.filter
        (fun st => decide (depsOf info.subtasks st.id = []))).foldl
      (fun acc st => queueSubtask tid st now acc) s1
    processTaskQueue ex (some tid) now s2

/-- `completed_subtasks` of `get_task_status`: the entries that are not
`None`, failures included. -/
def countTerminal (rm : ResultMap) : Nat :=
  rm.countP (fun p => decide (p.2 ≠ ResultEntry.pending))

/-- `failed_subtasks` of `get_task_status`: result-store keys that are in the
global `failed_tasks` set. -/
def countFailed (fl : List Nat) (rm : ResultMap) : Nat :=
  rm.countP (fun p => decide (p.1 ∈ fl))

/-- The progress ratio `get_task_status` computes: terminal (non-`None`)
entries over the subtask-list length, `0` when there are no subtasks. -/
def codeProgress (rm : ResultMap) (total : Nat) : ℚ :=
  if 0 < total then (countTerminal rm : ℚ) / (total : ℚ) else 0

/-- The mutation `get_task_status` applies to the task record: store the
recomputed progress, and flip the status to `completed` stamping `end_time`
when progress reaches `1.0` and the status is not already `completed`. -/
def statusFlip (now : Nat) (info : TaskInfo) (progress : ℚ) : TaskInfo :=
  if progress = 1 ∧ info.status ≠ .completed then
    { info with progress := progress, status := .completed, endTime := some now }
  else { info with progress := progress }

/-- `get_task_status`: recompute and store `progress`; flip the status to
`completed` and stamp `end_time` when progress reaches `1.0` and the status
is not already `completed`; report the (post-mutation) fields.  The result
store of a registered task is always present (`decompose_task` writes both
maps together), so the `getD []` default is never reached. -/
def getTaskStatus (tid : Nat) (now : Nat) (s : SchedState) :
    SchedState × StatusView :=
  match s.tasks tid with
  | none => (s, .notFound)
  | some info =>
    let rm := (s.results tid).getD []
    let total := info.subtasks.length
    let comp := countTerminal rm
    let info2 := statusFlip now info (codeProgress rm total)
    (updTask tid info2 s,
      .found info2.status info2.progress info2.startTime info2.endTime
        comp total (countFailed s.failedTasks rm))

/-- `get_task_results`: pure read; the still-pending reply carries the current
status and progress, the completed reply the raw store and the failed keys. -/
def getTaskResults (tid : Nat) (s : SchedState) : ResultsView :=
  match s.tasks tid with
  | none => .notFound
  | some info =>
    if info.status ≠ .completed then .stillPending info.status info.progress
    else
      let rm := (s.results tid).getD []
      .done (info.endTime.map (fun e => e - info.startTime)) rm
        ((rm.map (·.1)).filter (fun k => decide (k ∈ s.failedTasks)))

/-- `cancel_task`: error on an unknown id; error on a completed task;
otherwise set the status to `cancelled`, stamp `end_time` and drop every
queue item of this task, all in the same step. -/
def cancelTask (tid : Nat) (now : Nat) (s : SchedState) :
    SchedState × CancelView :=
  match s.tasks tid with
  | none => (s, .notFound)
  | some info =>
    if info.status = .completed then (s, .alreadyCompleted)
    else
      let s1 := updTask tid
        { info with status := .cancelled, endTime := some now } s
      ({ s1 with
          queue := s1.queue.filter (fun it => decide (it.taskId ≠ tid)) },
        .cancelled)

/-! ## Basic lemmas about the dictionary and state helpers -/

theorem dictGet_dictInsert_self (k : Nat) (v : α) (m : List (Nat × α)) :
    dictGet k (dictInsert k v m) = some v := by
  induction m with
  | nil => simp [dictGet, dictInsert]
  | cons p rest ih =>
    by_cases h : p.1 = k
    · simp [dictGet, dictInsert, h]
    · simpa [dictGet, dictInsert, h] using ih

theorem dictGet_dictInsert_ne (hk : k' ≠ k) (v : α) (m : List (Nat × α)) :
    dictGet k' (dictInsert k v m) = dictGet k' m := by
  induction m with
  | nil => simp [dictGet, dictInsert, Ne.symm hk]
  | cons p rest ih =>
    by_cases h : p.1 = k
    · have h' : ¬ p.1 = k' := fun hc => hk (hc ▸ h)
      simp [dictGet, dictInsert, h, h', Ne.symm hk]
    · by_cases h' : p.1 = k'
      · simp [dictGet, dictInsert, h, h', hk]
      · simpa [dictGet, dictInsert, h, h'] using ih

theorem dictInsert_keys (k : Nat) (v : α) (m : List (Nat × α)) :
    (dictInsert k v m).map (·.1) =
      if k ∈ m.map (·.1) then m.map (·.1) else m.map (·.1) ++ [k] := by
  induction m with
  | nil => simp [dictInsert]
  | cons p rest ih =>
    by_cases h : p.1 = k
    · simp [dictInsert, h]
    · rw [show dictInsert k v (p :: rest) = p :: dictInsert k v rest by
        simp [dictInsert, h]]
      by_cases hm : k ∈ rest.map (·.1) <;>
        simp [ih, hm, Ne.symm h, List.mem_map]

theorem dictGet_eq_none_iff (k : Nat) (m : List (Nat × α)) :
    dictGet k m = none ↔ k ∉ m.map (·.1) := by
  induction m with
  | nil => simp [dictGet]
  | cons p rest ih =>
    by_cases h : p.1 = k
    · simp [dictGet, h]
    · simpa [dictGet, h, Ne.symm h] using ih

theorem dictGet_isSome_of_mem {m : List (Nat × α)}
    (hk : k ∈ m.map (·.1)) : ∃ v, dictGet k m = some v := by
  rcases h : dictGet k m with _ | v
  · exact absurd ((dictGet_eq_none_iff k m).1 h) (by simpa using hk)
  · exact ⟨v, rfl⟩

theorem mem_of_dictGet_eq_some {m : List (Nat × α)}
    (h : dictGet k m = some v) : (k, v) ∈ m := by
  induction m with
  | nil => simp [dictGet] at h
  | cons p rest ih =>
    by_cases hp : p.1 = k
    · simp [dictGet, hp] at h
      have hpv : p = (k, v) := by
        rcases p with ⟨a, b⟩
        simp at hp h
        simp [hp, h]
      simp [hpv]
    · simp [dictGet, hp] at h
      exact .tail _ (ih h)

theorem mem_dictInsert (k : Nat) (v : α) (m : List (Nat × α)) (p : Nat × α)
    (hp : p ∈ dictInsert k v m) : p = (k, v) ∨ p ∈ m := by
  induction m with
  | nil => simp [dictInsert] at hp; simp [hp]
  | cons q rest ih =>
    by_cases h : q.1 = k
    · simp [dictInsert, h] at hp
      rcases hp with hp | hp
      · simp [hp]
      · exact Or.inr (.tail _ hp)
    · simp [dictInsert, h] at hp
      rcases hp with hp | hp
      · exact Or.inr (by simp [hp])
      · rcases ih hp with h1 | h1
        · simp [h1]
        · exact Or.inr (.tail _ h1)

theorem mem_setAdd (x : Nat) (l : List Nat) : y ∈ setAdd x l ↔ y = x ∨ y ∈ l := by
  unfold setAdd
  by_cases h : x ∈ l
  · simp [h]
    exact fun hy => hy ▸ h
  · simp [h]

/-! ## Frame lemmas for the state updates -/

@[simp] theorem updTask_tasks (t : Nat) :
    (updTask tid info s).tasks t = if t = tid then some info else s.tasks t := rfl

@[simp] theorem updTask_results : (updTask tid info s).results = s.results := rfl

@[simp] theorem updTask_queue : (updTask tid info s).queue = s.queue := rfl

@[simp] theorem updTask_completed :
    (updTask tid info s).completedTasks = s.completedTasks := rfl

@[simp] theorem updTask_failed :
    (updTask tid info s).failedTasks = s.failedTasks := rfl

@[simp] theorem updTask_maxParallel :
    (updTask tid info s).maxParallel = s.maxParallel := rfl

@[simp] theorem updResults_tasks : (updResults tid rm s).tasks = s.tasks := rfl

@[simp] theorem updResults_results (t : Nat) :
    (updResults tid rm s).results t = if t = tid then some rm else s.results t := rfl

@[simp] theorem updResults_queue : (updResults tid rm s).queue = s.queue := rfl

@[simp] theorem updResults_completed :
    (updResults tid rm s).completedTasks = s.completedTasks := rfl

@[simp] theorem updResults_failed :
    (updResults tid rm s).failedTasks = s.failedTasks := rfl

@[simp] theorem updResults_maxParallel :
    (updResults tid rm s).maxParallel = s.maxParallel := rfl

@[simp] theorem writeEntry_tasks : (writeEntry tid sid e s).tasks = s.tasks := rfl

@[simp] theorem writeEntry_queue : (writeEntry tid sid e s).queue = s.queue := rfl

@[simp] theorem writeEntry_completed :
    (writeEntry tid sid e s).completedTasks = s.completedTasks := rfl

@[simp] theorem writeEntry_failed :
    (writeEntry tid sid e s).failedTasks = s.failedTasks := rfl

@[simp] theorem writeEntry_maxParallel :
    (writeEntry tid sid e s).maxParallel = s.maxParallel := rfl

theorem entryOf_writeEntry (tid sid : Nat) (e : ResultEntry) (s : SchedState)
    (t k : Nat) :
    entryOf (writeEntry tid sid e s) t k =
      if t = tid ∧ k = sid then some e else entryOf s t k := by
  unfold entryOf writeEntry
  by_cases ht : t = tid
  · subst ht
    by_cases hk : k = sid
    · subst hk; simp [dictGet_dictInsert_self]
    · simp [hk, dictGet_dictInsert_ne hk]
  · simp [ht, Ne.symm ht]

theorem writeEntry_results_ne (h : t ≠ tid) :
    (writeEntry tid sid e s).results t = s.results t := by
  simp [writeEntry, h]

theorem writeEntry_results_self :
    (writeEntry tid sid e s).results tid =
      some (dictInsert sid e ((s.results tid).getD [])) := by
  simp [writeEntry]

@[simp] theorem queueSubtask_tasks : (queueSubtask tid st now s).tasks = s.tasks := rfl

@[simp] theorem queueSubtask_results :
    (queueSubtask tid st now s).results = s.results := rfl

@[simp] theorem queueSubtask_completed :
    (queueSubtask tid st now s).completedTasks = s.completedTasks := rfl

@[simp] theorem queueSubtask_failed :
    (queueSubtask tid st now s).failedTasks = s.failedTasks := rfl

@[simp] theorem queueSubtask_maxParallel :
    (queueSubtask tid st now s).maxParallel = s.maxParallel := rfl

@[simp] theorem queueSubtask_queue :
    (queueSubtask tid st now s).queue = s.queue ++ [⟨tid, st, now⟩] := rfl

/-! ## The `_queue_dependent_subtasks` scan -/

/-- Case analysis of one scan step. -/
theorem qdStep_cases (subs : List Subtask) (tid now : Nat) (acc : SchedState)
    (st : Subtask) :
    (qdStep subs tid now acc st = acc ∧
      (st.id ∈ acc.completedTasks ∨ st.id ∈ acc.failedTasks ∨
        st.id ∈ queuedIds acc ∨
        ¬ ∀ d ∈ depsOf subs st.id, d ∈ acc.completedTasks)) ∨
    (qdStep subs tid now acc st = queueSubtask tid st now acc ∧
      st.id ∉ acc.completedTasks ∧ st.id ∉ acc.failedTasks ∧
      st.id ∉ queuedIds acc ∧
      ∀ d ∈ depsOf subs st.id, d ∈ acc.completedTasks) := by
  unfold qdStep
  by_cases h1 : st.id ∈ acc.completedTasks ∨ st.id ∈ acc.failedTasks ∨
      st.id ∈ queuedIds acc
  · rw [if_pos h1]
    rcases h1 with h | h | h
    · exact Or.inl ⟨rfl, Or.inl h⟩
    · exact Or.inl ⟨rfl, Or.inr (Or.inl h)⟩
    · exact Or.inl ⟨rfl, Or.inr (Or.inr (Or.inl h))⟩
  · rw [if_neg h1]
    push_neg at h1
    by_cases h2 : ∀ d ∈ depsOf subs st.id, d ∈ acc.completedTasks
    · rw [if_pos (by simpa [List.all_eq_true, decide_eq_true_eq] using h2)]
      exact Or.inr ⟨rfl, h1.1, h1.2.1, h1.2.2, h2⟩
    · rw [if_neg (by simpa [List.all_eq_true, decide_eq_true_eq] using h2)]
      exact Or.inl ⟨rfl, Or.inr (Or.inr (Or.inr h2))⟩

/-- The scan only appends queue items; everything else is untouched, and
every appended item is a subtask of the scanned list, stamped with the scanned
task id and time, whose dependencies were all in the completed set. -/
theorem qdFold_spec (subs : List Subtask) (tid now : Nat) :
    ∀ (l : List Subtask) (acc : SchedState),
    (l.foldl (qdStep subs tid now) acc).tasks = acc.tasks ∧
    (l.foldl (qdStep subs tid now) acc).results = acc.results ∧
    (l.foldl (qdStep subs tid now) acc).completedTasks = acc.completedTasks ∧
    (l.foldl (qdStep subs tid now) acc).failedTasks = acc.failedTasks ∧
    (l.foldl (qdStep subs tid now) acc).maxParallel = acc.maxParallel ∧
    ∃ app, (l.foldl (qdStep subs tid now) acc).queue = acc.queue ++ app ∧
      ∀ it ∈ app, it.taskId = tid ∧ it.queuedTime = now ∧
        it.subtask ∈ l ∧
        ∀ d ∈ depsOf subs it.subtask.id, d ∈ acc.completedTasks
  | [], acc => by
    refine ⟨rfl, rfl, rfl, rfl, rfl, [], by simp, by simp⟩
  | st :: rest, acc => by
    rcases qdStep_cases subs tid now acc st with ⟨heq, _⟩ | ⟨heq, _, _, _, hdeps⟩
    · have ih := qdFold_spec subs tid now rest acc
      simp only [List.foldl_cons, heq]
      refine ⟨ih.1, ih.2.1, ih.2.2.1, ih.2.2.2.1, ih.2.2.2.2.1, ?_⟩
      obtain ⟨app, happ, hprop⟩ := ih.2.2.2.2.2
      exact ⟨app, happ, fun it hit => by
        obtain ⟨h1, h2, h3, h4⟩ := hprop it hit
        exact ⟨h1, h2, .tail _ h3, h4⟩⟩
    · have ih := qdFold_spec subs tid now rest (queueSubtask tid st now acc)
      simp only [List.foldl_cons, heq]
      refine ⟨by simpa using ih.1, by simpa using ih.2.1,
        by simpa using ih.2.2.1, by simpa using ih.2.2.2.1,
        by simpa using ih.2.2.2.2.1, ?_⟩
      obtain ⟨app, happ, hprop⟩ := ih.2.2.2.2.2
      refine ⟨⟨tid, st, now⟩ :: app, by simpa using happ, ?_⟩
      intro it hit
      rcases List.mem_cons.1 hit with rfl | hit2
      · exact ⟨rfl, rfl, .head _, hdeps⟩
      · obtain ⟨h1, h2, h3, h4⟩ := hprop it hit2
        exact ⟨h1, h2, .tail _ h3, by simpa using h4⟩

/-- Completeness of the scan: a scanned subtask that is neither completed nor
failed, with every dependency in the completed set, ends up queued (either it
already was, or the scan enqueues it). -/
theorem qdFold_complete (subs : List Subtask) (tid now : Nat) (st : Subtask) :
    ∀ (l : List Subtask) (acc : SchedState),
    (st ∈ l ∧ st.id ∉ acc.completedTasks ∧ st.id ∉ acc.failedTasks ∧
        (∀ d ∈ depsOf subs st.id, d ∈ acc.completedTasks)) ∨
      (∃ it ∈ acc.queue, it.subtask.id = st.id) →
    ∃ it ∈ (l.foldl (qdStep subs tid now) acc).queue, it.subtask.id = st.id
  | [], acc => by
    rintro (⟨hmem, _⟩ | ⟨it, hit, hid⟩)
    · cases hmem
    · exact ⟨it, hit, hid⟩
  | y :: rest, acc => by
    intro h
    rcases h with ⟨hmem, h1, h2, h3⟩ | ⟨it, hit, hid⟩
    · rcases List.mem_cons.1 hmem with rfl | hmem'
      · rcases qdStep_cases subs tid now acc st with
          ⟨heq, hwhy⟩ | ⟨heq, _, _, _, _⟩
        · rcases hwhy with hc | hc | hc | hc
          · exact absurd hc h1
          · exact absurd hc h2
          · obtain ⟨it, hit, hid⟩ := List.mem_map.1 hc
            simp only [List.foldl_cons, heq]
            exact qdFold_complete subs tid now st rest acc
              (Or.inr ⟨it, hit, hid⟩)
          · exact absurd h3 hc
        · simp only [List.foldl_cons, heq]
          exact qdFold_complete subs tid now st rest (queueSubtask tid st now acc)
            (Or.inr ⟨⟨tid, st, now⟩, by simp, rfl⟩)
      · rcases qdStep_cases subs tid now acc y with ⟨heq, _⟩ | ⟨heq, _, _, _, _⟩
        · simp only [List.foldl_cons, heq]
          exact qdFold_complete subs tid now st rest acc
            (Or.inl ⟨hmem', h1, h2, h3⟩)
        · simp only [List.foldl_cons, heq]
          exact qdFold_complete subs tid now st rest (queueSubtask tid y now acc)
            (Or.inl ⟨hmem', by simpa using h1, by simpa using h2,
              by simpa using h3⟩)
    · rcases qdStep_cases subs tid now acc y with ⟨heq, _⟩ | ⟨heq, _, _, _, _⟩
      · simp only [List.foldl_cons, heq]
        exact qdFold_complete subs tid now st rest acc (Or.inr ⟨it, hit, hid⟩)
      · simp only [List.foldl_cons, heq]
        exact qdFold_complete subs tid now st rest (queueSubtask tid y now acc)
          (Or.inr ⟨it, by simp; exact Or.inl hit, hid⟩)

/-- `_queue_dependent_subtasks` as a whole: frame plus appended-item facts. -/
theorem QD_spec (tid c now : Nat) (s : SchedState) :
    (queueDependentSubtasks tid c now s).tasks = s.tasks ∧
    (queueDependentSubtasks tid c now s).results = s.results ∧
    (queueDependentSubtasks tid c now s).completedTasks = s.completedTasks ∧
    (queueDependentSubtasks tid c now s).failedTasks = s.failedTasks ∧
    (queueDependentSubtasks tid c now s).maxParallel = s.maxParallel ∧
    ∃ app, (queueDependentSubtasks tid c now s).queue = s.queue ++ app ∧
      ∀ it ∈ app, it.taskId = tid ∧ it.queuedTime = now ∧
        (∃ info, s.tasks tid = some info ∧ it.subtask ∈ info.subtasks ∧
          ∀ d ∈ depsOf info.subtasks it.subtask.id, d ∈ s.completedTasks) := by
  unfold queueDependentSubtasks
  cases h : s.tasks tid with
  | none => exact ⟨rfl, rfl, rfl, rfl, rfl, [], by simp, by simp⟩
  | some info =>
    have spec := qdFold_spec info.subtasks tid now info.subtasks s
    refine ⟨spec.1, spec.2.1, spec.2.2.1, spec.2.2.2.1, spec.2.2.2.2.1, ?_⟩
    obtain ⟨app, happ, hprop⟩ := spec.2.2.2.2.2
    refine ⟨app, happ, fun it hit => ?_⟩
    obtain ⟨h1, h2, h3, h4⟩ := hprop it hit
    exact ⟨h1, h2, info, rfl, h3, h4⟩

/-- `_queue_dependent_subtasks` completeness: on a registered task, a subtask
that is neither completed nor failed and whose dependencies are all completed
is queued afterwards. -/
theorem QD_complete (tid c now : Nat) (s : SchedState) (info : TaskInfo)
    (st : Subtask) (htask : s.tasks tid = some info)
    (hmem : st ∈ info.subtasks) (h1 : st.id ∉ s.completedTasks)
    (h2 : st.id ∉ s.failedTasks)
    (h3 : ∀ d ∈ depsOf info.subtasks st.id, d ∈ s.completedTasks) :
    ∃ it ∈ (queueDependentSubtasks tid c now s).queue,
      it.subtask.id = st.id := by
  unfold queueDependentSubtasks
  rw [htask]
  exact qdFold_complete info.subtasks tid now st info.subtasks s
    (Or.inl ⟨hmem, h1, h2, h3⟩)

theorem setAdd_self (x : Nat) (l : List Nat) : x ∈ setAdd x l := by
  simp [mem_setAdd]

theorem setAdd_sub (x : Nat) (l : List Nat) (hy : y ∈ l) : y ∈ setAdd x l := by
  simp [mem_setAdd, hy]

/-- Over-approximation of a `set.add`: the new set is either unchanged or the
element prepended. -/
theorem setAdd_cases (x : Nat) (l : List Nat) :
    setAdd x l = l ∨ setAdd x l = x :: l := by
  unfold setAdd; by_cases h : x ∈ l <;> simp [h]

/-! ## One dispatch of the loop body -/

theorem entryOf_congr (h : s'.results = s.results) :
    entryOf s' t k = entryOf s t k := by
  unfold entryOf; rw [h]

theorem execOne_tasks (ex : Subtask → Bool) (now : Nat) (item : QueueItem)
    (s : SchedState) : (execOne ex now item s).tasks = s.tasks := by
  unfold execOne
  by_cases h : ex item.subtask
  · simp only [h, if_true]
    rw [(QD_spec _ _ _ _).1]
    rfl
  · simp only [h, if_false]
    rfl

theorem execOne_maxParallel (ex : Subtask → Bool) (now : Nat)
    (item : QueueItem) (s : SchedState) :
    (execOne ex now item s).maxParallel = s.maxParallel := by
  unfold execOne
  by_cases h : ex item.subtask
  · simp only [h, if_true]
    rw [(QD_spec _ _ _ _).2.2.2.2.1]
    rfl
  · simp only [h, if_false]
    rfl

theorem execOne_completed (ex : Subtask → Bool) (now : Nat) (item : QueueItem)
    (s : SchedState) :
    (execOne ex now item s).completedTasks =
      if ex item.subtask then setAdd item.subtask.id s.completedTasks
      else s.completedTasks := by
  unfold execOne
  by_cases h : ex item.subtask
  · simp only [h, if_true]
    rw [(QD_spec _ _ _ _).2.2.1]
    rfl
  · simp only [h, if_false]
    rfl

theorem execOne_failed (ex : Subtask → Bool) (now : Nat) (item : QueueItem)
    (s : SchedState) :
    (execOne ex now item s).failedTasks =
      if ex item.subtask then s.failedTasks
      else setAdd item.subtask.id s.failedTasks := by
  unfold execOne
  by_cases h : ex item.subtask
  · simp only [h, if_true]
    rw [(QD_spec _ _ _ _).2.2.2.1]
    rfl
  · simp only [h, if_false]
    rfl

theorem execOne_results (ex : Subtask → Bool) (now : Nat) (item : QueueItem)
    (s : SchedState) (t : Nat) :
    (execOne ex now item s).results t =
      if t = item.taskId then
        some (dictInsert item.subtask.id
          (if ex item.subtask then .success else .failure)
          ((s.results item.taskId).getD []))
      else s.results t := by
  unfold execOne
  by_cases h : ex item.subtask
  · simp only [h, if_true]
    rw [congrFun (QD_spec _ _ _ _).2.1 t]
    by_cases ht : t = item.taskId <;> simp [writeEntry, ht]
  · by_cases ht : t = item.taskId <;> simp [h, writeEntry, ht]

theorem entryOf_execOne (ex : Subtask → Bool) (now : Nat) (item : QueueItem)
    (s : SchedState) (t k : Nat) :
    entryOf (execOne ex now item s) t k =
      if t = item.taskId ∧ k = item.subtask.id then
        some (if ex item.subtask then .success else .failure)
      else entryOf s t k := by
  unfold entryOf
  rw [execOne_results]
  by_cases ht : t = item.taskId
  · subst ht
    by_cases hk : k = item.subtask.id
    · subst hk; simp [dictGet_dictInsert_self]
    · simp [hk, dictGet_dictInsert_ne hk]
  · simp [ht]

theorem execOne_queue (ex : Subtask → Bool) (now : Nat) (item : QueueItem)
    (s : SchedState) :
    ∃ app, (execOne ex now item s).queue = s.queue ++ app ∧
      ∀ it ∈ app, it.taskId = item.taskId ∧ it.queuedTime = now ∧
        (∃ info, s.tasks item.taskId = some info ∧
          it.subtask ∈ info.subtasks ∧
          ∀ d ∈ depsOf info.subtasks it.subtask.id,
            d ∈ (execOne ex now item s).completedTasks) := by
  by_cases h : ex item.subtask
  · have heq : execOne ex now item s =
        queueDependentSubtasks item.taskId item.subtask.id now
          { writeEntry item.taskId item.subtask.id ResultEntry.success s with
            completedTasks := setAdd item.subtask.id s.completedTasks } := by
      unfold execOne
      rw [if_pos h]
      rfl
    rw [heq]
    obtain ⟨htasks, hres, hcomp, hfail, hmax, app, happ, hprop⟩ :=
      QD_spec item.taskId item.subtask.id now
        { writeEntry item.taskId item.subtask.id ResultEntry.success s with
          completedTasks := setAdd item.subtask.id s.completedTasks }
    refine ⟨app, happ, fun it hit => ?_⟩
    obtain ⟨h1, h2, info, hinfo, h3, h4⟩ := hprop it hit
    refine ⟨h1, h2, info, hinfo, h3, fun d hd => ?_⟩
    rw [hcomp]
    exact h4 d hd
  · refine ⟨[], ?_, by simp⟩
    unfold execOne
    rw [if_neg h]
    simp

theorem execOne_queue_mono (ex : Subtask → Bool) (now : Nat)
    (item : QueueItem) (s : SchedState) (it : QueueItem)
    (hit : it ∈ s.queue) : it ∈ (execOne ex now item s).queue := by
  obtain ⟨app, happ, -⟩ := execOne_queue ex now item s
  rw [happ]
  exact List.mem_append_left _ hit

theorem execOne_completed_mono (hx : x ∈ s.completedTasks) :
    x ∈ (execOne ex now item s).completedTasks := by
  rw [execOne_completed]
  by_cases h : ex item.subtask <;> simp [h, setAdd_sub, hx]

theorem execOne_failed_mono (hx : x ∈ s.failedTasks) :
    x ∈ (execOne ex now item s).failedTasks := by
  rw [execOne_failed]
  by_cases h : ex item.subtask <;> simp [h, setAdd_sub, hx]

/-! ## The iterated loop -/

theorem processLoop_tasks (ex : Subtask → Bool) (now : Nat) :
    ∀ (R : List QueueItem) (s : SchedState),
    (processLoop ex now R s).tasks = s.tasks
  | [], s => rfl
  | it :: rest, s => by
    rw [processLoop, processLoop_tasks ex now rest, execOne_tasks]

theorem processLoop_maxParallel (ex : Subtask → Bool) (now : Nat) :
    ∀ (R : List QueueItem) (s : SchedState),
    (processLoop ex now R s).maxParallel = s.maxParallel
  | [], s => rfl
  | it :: rest, s => by
    rw [processLoop, processLoop_maxParallel ex now rest, execOne_maxParallel]

theorem processLoop_queue_app (ex : Subtask → Bool) (now : Nat) :
    ∀ (R : List QueueItem) (s : SchedState),
    ∃ app, (processLoop ex now R s).queue = s.queue ++ app
  | [], s => ⟨[], by simp [processLoop]⟩
  | it :: rest, s => by
    obtain ⟨app1, h1, -⟩ := execOne_queue ex now it s
    obtain ⟨app2, h2⟩ := processLoop_queue_app ex now rest (execOne ex now it s)
    exact ⟨app1 ++ app2, by rw [processLoop, h2, h1, List.append_assoc]⟩

theorem processLoop_queue_mono (ex : Subtask → Bool) (now : Nat)
    (R : List QueueItem) (s : SchedState) (it : QueueItem)
    (hit : it ∈ s.queue) : it ∈ (processLoop ex now R s).queue := by
  obtain ⟨app, happ⟩ := processLoop_queue_app ex now R s
  rw [happ]
  exact List.mem_append_left _ hit

theorem processLoop_completed_mono (ex : Subtask → Bool) (now : Nat) :
    ∀ (R : List QueueItem) (s : SchedState) (x : Nat),
    x ∈ s.completedTasks → x ∈ (processLoop ex now R s).completedTasks
  | [], s, x, hx => hx
  | it :: rest, s, x, hx => by
    rw [processLoop]
    exact processLoop_completed_mono ex now rest _ x (execOne_completed_mono hx)

theorem processLoop_failed_mono (ex : Subtask → Bool) (now : Nat) :
    ∀ (R : List QueueItem) (s : SchedState) (x : Nat),
    x ∈ s.failedTasks → x ∈ (processLoop ex now R s).failedTasks
  | [], s, x, hx => hx
  | it :: rest, s, x, hx => by
    rw [processLoop]
    exact processLoop_failed_mono ex now rest _ x (execOne_failed_mono hx)

theorem processLoop_completed_sub (ex : Subtask → Bool) (now : Nat) :
    ∀ (R : List QueueItem) (s : SchedState) (x : Nat),
    x ∈ (processLoop ex now R s).completedTasks →
    x ∈ s.completedTasks ∨ ∃ it ∈ R, it.subtask.id = x ∧ ex it.subtask = true
  | [], s, x, hx => Or.inl hx
  | it :: rest, s, x, hx => by
    rw [processLoop] at hx
    rcases processLoop_completed_sub ex now rest _ x hx with h | ⟨it', h1, h2, h3⟩
    · rw [execOne_completed] at h
      by_cases hex : ex it.subtask
      · rw [if_pos hex] at h
        rcases (mem_setAdd _ _).1 h with rfl | h'
        · exact Or.inr ⟨it, .head _, rfl, hex⟩
        · exact Or.inl h'
      · rw [if_neg hex] at h
        exact Or.inl h
    · exact Or.inr ⟨it', .tail _ h1, h2, h3⟩

theorem processLoop_failed_sub (ex : Subtask → Bool) (now : Nat) :
    ∀ (R : List QueueItem) (s : SchedState) (x : Nat),
    x ∈ (processLoop ex now R s).failedTasks →
    x ∈ s.failedTasks ∨ ∃ it ∈ R, it.subtask.id = x ∧ ex it.subtask = false
  | [], s, x, hx => Or.inl hx
  | it :: rest, s, x, hx => by
    rw [processLoop] at hx
    rcases processLoop_failed_sub ex now rest _ x hx with h | ⟨it', h1, h2, h3⟩
    · rw [execOne_failed] at h
      by_cases hex : ex it.subtask
      · rw [if_pos hex] at h
        exact Or.inl h
      · rw [if_neg hex] at h
        rcases (mem_setAdd _ _).1 h with rfl | h'
        · exact Or.inr ⟨it, .head _, rfl, by simpa using hex⟩
        · exact Or.inl h'
    · exact Or.inr ⟨it', .tail _ h1, h2, h3⟩

theorem processLoop_entry_frame (ex : Subtask → Bool) (now : Nat) :
    ∀ (R : List QueueItem) (s : SchedState) (t k : Nat),
    (∀ it ∈ R, ¬(it.taskId = t ∧ it.subtask.id = k)) →
    entryOf (processLoop ex now R s) t k = entryOf s t k
  | [], s, t, k, _ => rfl
  | it :: rest, s, t, k, h => by
    rw [processLoop,
      processLoop_entry_frame ex now rest _ t k
        (fun it' hit' => h it' (.tail _ hit')),
      entryOf_execOne, if_neg]
    intro hc
    exact h it (.head _) ⟨hc.1.symm, hc.2.symm⟩

theorem processLoop_entry_terminal_mono (ex : Subtask → Bool) (now : Nat) :
    ∀ (R : List QueueItem) (s : SchedState) (t k : Nat),
    (entryOf s t k = some .success ∨ entryOf s t k = some .failure) →
    entryOf (processLoop ex now R s) t k = some .success ∨
      entryOf (processLoop ex now R s) t k = some .failure
  | [], s, t, k, h => h
  | it :: rest, s, t, k, h => by
    rw [processLoop]
    refine processLoop_entry_terminal_mono ex now rest _ t k ?_
    rw [entryOf_execOne]
    by_cases hc2 : t = it.taskId ∧ k = it.subtask.id
    · rw [if_pos hc2]
      by_cases hex : ex it.subtask <;> simp [hex]
    · rw [if_neg hc2]; exact h

theorem processLoop_entry_written (ex : Subtask → Bool) (now : Nat) :
    ∀ (R : List QueueItem) (s : SchedState) (it : QueueItem), it ∈ R →
    entryOf (processLoop ex now R s) it.taskId it.subtask.id = some .success ∨
      entryOf (processLoop ex now R s) it.taskId it.subtask.id = some .failure
  | [], _, _, h => by cases h
  | y :: rest, s, it, h => by
    rcases List.mem_cons.1 h with rfl | h'
    · rw [processLoop]
      refine processLoop_entry_terminal_mono ex now rest _ _ _ ?_
      rw [entryOf_execOne, if_pos ⟨rfl, rfl⟩]
      by_cases hex : ex it.subtask <;> simp [hex]
    · rw [processLoop]
      exact processLoop_entry_written ex now rest _ it h'

theorem processLoop_entry_change (ex : Subtask → Bool) (now : Nat) :
    ∀ (R : List QueueItem) (s : SchedState) (t k : Nat),
    entryOf (processLoop ex now R s) t k = entryOf s t k ∨
      ∃ it ∈ R, it.taskId = t ∧ it.subtask.id = k
  | [], s, t, k => Or.inl rfl
  | it :: rest, s, t, k => by
    rcases processLoop_entry_change ex now rest (execOne ex now it s) t k with
      h | ⟨it', h1, h2, h3⟩
    · rw [processLoop]
      by_cases hc : t = it.taskId ∧ k = it.subtask.id
      · exact Or.inr ⟨it, .head _, hc.1 ▸ rfl, hc.2 ▸ rfl⟩
      · rw [h, entryOf_execOne, if_neg hc]
        exact Or.inl rfl
    · exact Or.inr ⟨it', .tail _ h1, h2, h3⟩

/-- With distinct subtask ids in the snapshot, each processed item's entry is
exactly its own outcome. -/
theorem processLoop_entry_exact (ex : Subtask → Bool) (now : Nat) :
    ∀ (R : List QueueItem) (s : SchedState) (it : QueueItem), it ∈ R →
    (R.map (fun i => i.subtask.id)).Nodup →
    entryOf (processLoop ex now R s) it.taskId it.subtask.id =
      some (if ex it.subtask then .success else .failure)
  | [], _, _, h, _ => by cases h
  | y :: rest, s, it, h, hnd => by
    rcases List.mem_cons.1 h with rfl | h'
    · rw [processLoop, processLoop_entry_frame, entryOf_execOne,
        if_pos ⟨rfl, rfl⟩]
      intro it' hit' hc
      have : it.subtask.id ∈ rest.map (fun i => i.subtask.id) :=
        List.mem_map.2 ⟨it', hit', hc.2⟩
      exact (List.nodup_cons.1 (by simpa using hnd)).1 this
    · rw [processLoop]
      exact processLoop_entry_exact ex now rest _ it h'
        (List.nodup_cons.1 (by simpa using hnd)).2

theorem processLoop_failed_of_item (ex : Subtask → Bool) (now : Nat) :
    ∀ (R : List QueueItem) (s : SchedState) (it : QueueItem), it ∈ R →
    ex it.subtask = false →
    it.subtask.id ∈ (processLoop ex now R s).failedTasks
  | [], _, _, h, _ => by cases h
  | y :: rest, s, it, h, hex => by
    rcases List.mem_cons.1 h with rfl | h'
    · rw [processLoop]
      refine processLoop_failed_mono ex now rest _ _ ?_
      rw [execOne_failed, if_neg (by simp [hex])]
      exact setAdd_self _ _
    · rw [processLoop]
      exact processLoop_failed_of_item ex now rest _ it h' hex

theorem processLoop_completed_of_item (ex : Subtask → Bool) (now : Nat) :
    ∀ (R : List QueueItem) (s : SchedState) (it : QueueItem), it ∈ R →
    ex it.subtask = true →
    it.subtask.id ∈ (processLoop ex now R s).completedTasks
  | [], _, _, h, _ => by cases h
  | y :: rest, s, it, h, hex => by
    rcases List.mem_cons.1 h with rfl | h'
    · rw [processLoop]
      refine processLoop_completed_mono ex now rest _ _ ?_
      rw [execOne_completed, if_pos hex]
      exact setAdd_self _ _
    · rw [processLoop]
      exact processLoop_completed_of_item ex now rest _ it h' hex

/-! ## Counting queue items, `list.remove`, and the snapshot -/

/-- Multiplicity of a queue-item value in a list. -/
def countItem (x : QueueItem) (l : List QueueItem) : Nat :=
  l.countP (fun y => decide (y = x))

theorem countItem_nil (x : QueueItem) : countItem x [] = 0 := rfl

theorem countItem_cons (x y : QueueItem) (l : List QueueItem) :
    countItem x (y :: l) = countItem x l + if y = x then 1 else 0 := by
  unfold countItem
  rw [List.countP_cons]
  by_cases h : y = x <;> simp [h]

theorem countItem_append (x : QueueItem) (l1 l2 : List QueueItem) :
    countItem x (l1 ++ l2) = countItem x l1 + countItem x l2 := by
  unfold countItem
  exact List.countP_append _ _ _

theorem countItem_pos_iff (x : QueueItem) (l : List QueueItem) :
    0 < countItem x l ↔ x ∈ l := by
  unfold countItem
  rw [List.countP_pos]
  constructor
  · rintro ⟨a, ha, hax⟩
    exact (of_decide_eq_true hax) ▸ ha
  · intro hx
    exact ⟨x, hx, by simp⟩

theorem countItem_eraseItem (x y : QueueItem) (l : List QueueItem) :
    countItem x l ≤ countItem x (eraseItem y l) + 1 := by
  induction l with
  | nil => simp [eraseItem, countItem_nil]
  | cons z rest ih =>
    rw [eraseItem]
    by_cases hz : z = y
    · rw [if_pos hz, countItem_cons]
      by_cases hx : z = x <;> simp [hx]
    · rw [if_neg hz, countItem_cons, countItem_cons]
      omega

theorem countItem_eraseItem_ne (x y : QueueItem) (l : List QueueItem)
    (hxy : y ≠ x) : countItem x (eraseItem y l) = countItem x l := by
  induction l with
  | nil => simp [eraseItem]
  | cons z rest ih =>
    rw [eraseItem]
    by_cases hz : z = y
    · rw [if_pos hz, countItem_cons, if_neg (hz ▸ hxy)]
      omega
    · rw [if_neg hz, countItem_cons, countItem_cons, ih]

theorem removeAll_count (x : QueueItem) :
    ∀ (items q : List QueueItem),
    countItem x q ≤ countItem x (removeAll items q) + countItem x items
  | [], q => by simp [removeAll, countItem_nil]
  | i :: rest, q => by
    have h1 : removeAll (i :: rest) q = removeAll rest (eraseItem i q) := rfl
    have h3 := removeAll_count x rest (eraseItem i q)
    rw [h1, countItem_cons]
    by_cases hx : i = x
    · have h2 := countItem_eraseItem x i q
      rw [if_pos hx]
      omega
    · have h2 := countItem_eraseItem_ne x i q hx
      rw [if_neg hx]
      omega

theorem removeAll_survive (items q : List QueueItem) (x : QueueItem)
    (h : countItem x items < countItem x q) : x ∈ removeAll items q := by
  have h1 := removeAll_count x items q
  exact (countItem_pos_iff x _).1 (by omega)

theorem snapOf_sublist (tid : Nat) (s : SchedState) :
    List.Sublist (snapOf (some tid) s) s.queue := by
  unfold snapOf
  exact (List.take_sublist _ _).trans (List.filter_sublist _)

theorem snapOf_count_le (tid : Nat) (s : SchedState) (x : QueueItem) :
    countItem x (snapOf (some tid) s) ≤ countItem x s.queue :=
  (snapOf_sublist tid s).countP_le _

theorem snapOf_mem (tid : Nat) (s : SchedState) (it : QueueItem)
    (h : it ∈ snapOf (some tid) s) : it.taskId = tid ∧ it ∈ s.queue := by
  have h1 : it ∈ s.queue.filter (fun i => decide (i.taskId = tid)) := by
    unfold snapOf at h
    exact (List.take_sublist _ _).mem h
  have h2 := List.mem_filter.1 h1
  exact ⟨of_decide_eq_true h2.2, h2.1⟩

theorem snapOf_length_le (tid : Nat) (s : SchedState) :
    (snapOf (some tid) s).length ≤ s.maxParallel := by
  unfold snapOf
  exact List.length_take_le _ _

/-! ## `_process_task_queue` and `execute_task` assembled -/

theorem processTaskQueue_fst (ex : Subtask → Bool) (f : Option Nat)
    (now : Nat) (s : SchedState) :
    (processTaskQueue ex f now s).1 =
      { processLoop ex now (snapOf f s) s with
        queue := removeAll (snapOf f s)
          (processLoop ex now (snapOf f s) s).queue } := rfl

theorem processTaskQueue_view (ex : Subtask → Bool) (f : Option Nat)
    (now : Nat) (s : SchedState) :
    (processTaskQueue ex f now s).2 =
      .running (processTaskQueue ex f now s).1.queue.length
        (snapOf f s).length := rfl

theorem processTaskQueue_tasks (ex : Subtask → Bool) (f : Option Nat)
    (now : Nat) (s : SchedState) :
    (processTaskQueue ex f now s).1.tasks = s.tasks := by
  rw [processTaskQueue_fst]
  exact processLoop_tasks ex now _ s

/-- The queue items the initial phase of `execute_task` enqueues: one per
subtask with an empty dependency list, in list order. -/
def initQueued (tid now : Nat) (info : TaskInfo) : List QueueItem :=
  (info.subtasks.filter
    (fun st => decide (depsOf info.subtasks st.id = []))).map
    (fun st => ⟨tid, st, now⟩)

/-- The state after the status write and the initial enqueue of
`execute_task`, before its `_process_task_queue` round. -/
def execMid (tid now : Nat) (info : TaskInfo) (s : SchedState) : SchedState :=
  let s1 := updTask tid { info with status := .executing } s
  { s1 with queue := s1.queue ++ initQueued tid now info }

theorem initFold_spec (tid now : Nat) :
    ∀ (l : List Subtask) (acc : SchedState),
    l.foldl (fun acc st => queueSubtask tid st now acc) acc =
      { acc with queue := acc.queue ++ l.map (fun st => (⟨tid, st, now⟩ : QueueItem)) }
  | [], acc => by simp
  | st :: rest, acc => by
    rw [List.foldl_cons, initFold_spec tid now rest]
    unfold queueSubtask
    simp

theorem executeTask_some (ex : Subtask → Bool) (tid now : Nat)
    (s : SchedState) (info : TaskInfo) (h : s.tasks tid = some info) :
    executeTask ex tid now s =
      processTaskQueue ex (some tid) now (execMid tid now info s) := by
  simp only [executeTask, h]
  rw [initFold_spec]
  rfl

theorem executeTask_none (ex : Subtask → Bool) (tid now : Nat)
    (s : SchedState) (h : s.tasks tid = none) :
    executeTask ex tid now s = (s, .notFound) := by
  simp only [executeTask, h]

/-! ## `get_task_status` characterized -/

theorem getTaskStatus_none (h : s.tasks tid = none) :
    getTaskStatus tid now s = (s, .notFound) := by
  simp only [getTaskStatus, h]

theorem getTaskStatus_some (tid now : Nat) (s : SchedState) (info : TaskInfo)
    (rm : ResultMap) (htask : s.tasks tid = some info)
    (hrm : s.results tid = some rm) :
    getTaskStatus tid now s =
      (updTask tid (statusFlip now info (codeProgress rm info.subtasks.length)) s,
        .found (statusFlip now info (codeProgress rm info.subtasks.length)).status
          (statusFlip now info (codeProgress rm info.subtasks.length)).progress
          (statusFlip now info (codeProgress rm info.subtasks.length)).startTime
          (statusFlip now info (codeProgress rm info.subtasks.length)).endTime
          (countTerminal rm) info.subtasks.length
          (countFailed s.failedTasks rm)) := by
  simp only [getTaskStatus, htask, hrm, Option.getD_some]

theorem statusFlip_status (now : Nat) (info : TaskInfo) (pr : ℚ) :
    (statusFlip now info pr).status =
      if pr = 1 ∧ info.status ≠ .completed then .completed else info.status := by
  unfold statusFlip
  by_cases h : pr = 1 ∧ info.status ≠ .completed <;> simp [h]

theorem statusFlip_progress (now : Nat) (info : TaskInfo) (pr : ℚ) :
    (statusFlip now info pr).progress = pr := by
  unfold statusFlip
  by_cases h : pr = 1 ∧ info.status ≠ .completed <;> simp [h]

theorem countTerminal_le_length (rm : ResultMap) :
    countTerminal rm ≤ rm.length :=
  List.countP_le_length _

theorem countTerminal_lt_of_pending (rm : ResultMap) (k : Nat)
    (h : (k, ResultEntry.pending) ∈ rm) : countTerminal rm < rm.length := by
  induction rm with
  | nil => cases h
  | cons p rest ih =>
    unfold countTerminal at ih ⊢
    rw [List.countP_cons, List.length_cons]
    rcases List.mem_cons.1 h with hp | hp
    · have hpend : p.2 = ResultEntry.pending := by rw [← hp]
      have hle := List.countP_le_length
        (p := fun q => decide (q.2 ≠ ResultEntry.pending)) (l := rest)
      have hd : (decide (p.2 ≠ ResultEntry.pending)) = false := by
        simp [hpend]
      rw [hd]
      simp only [Bool.false_eq_true, if_false]
      omega
    · have hlt := ih hp
      by_cases hq : (decide (p.2 ≠ ResultEntry.pending)) = true
      · rw [hq]
        simp only [if_true]
        omega
      · rw [Bool.not_eq_true] at hq
        rw [hq]
        simp only [Bool.false_eq_true, if_false]
        omega

theorem codeProgress_eq_one_iff (rm : ResultMap) (total : Nat) :
    codeProgress rm total = 1 ↔ 0 < total ∧ countTerminal rm = total := by
  unfold codeProgress
  by_cases h : 0 < total
  · rw [if_pos h]
    rw [div_eq_one_iff_eq (by exact_mod_cast h.ne')]
    simp [h, Nat.cast_inj]
  · rw [if_neg h]
    simp [h]

theorem codeProgress_lt_one (rm : ResultMap) (total : Nat)
    (h : countTerminal rm < total) : codeProgress rm total < 1 := by
  unfold codeProgress
  rw [if_pos (Nat.pos_of_ne_zero (by omega))]
  rw [div_lt_one (by exact_mod_cast Nat.pos_of_ne_zero (by omega))]
  exact_mod_cast h

/-! ## Claim theorems about single operations -/

/-- C1 (amended): `get_task_status` marks a registered, not-yet-completed
task `completed` exactly when the number of terminal (non-pending) result
entries — failures included — equals the number of subtasks and that number
is positive; only a still-pending entry keeps the status away from
`completed` and the reported progress below `1`. -/
theorem completion_counts_failures (tid now : Nat) (s : SchedState)
    (info : TaskInfo) (rm : ResultMap) (htask : s.tasks tid = some info)
    (hrm : s.results tid = some rm) (hnc : info.status ≠ .completed)
    (hlen : rm.length ≤ info.subtasks.length) :
    (((getTaskStatus tid now s).2.statusOf = some TaskStatus.completed) ↔
      (0 < info.subtasks.length ∧
        countTerminal rm = info.subtasks.length)) ∧
    (∀ k, (k, ResultEntry.pending) ∈ rm →
      (getTaskStatus tid now s).2.statusOf ≠ some TaskStatus.completed ∧
      ∀ q, (getTaskStatus tid now s).2.progressOf = some q → q < 1) := by
  rw [getTaskStatus_some tid now s info rm htask hrm]
  constructor
  · simp only [StatusView.statusOf, statusFlip_status, Option.some_inj]
    by_cases h : codeProgress rm info.subtasks.length = 1 ∧
        info.status ≠ TaskStatus.completed
    · rw [if_pos h]
      simp only [true_iff]
      exact (codeProgress_eq_one_iff rm info.subtasks.length).1 h.1
    · rw [if_neg h]
      constructor
      · intro hc
        exact absurd hc hnc
      · intro hc
        exact absurd ⟨(codeProgress_eq_one_iff rm info.subtasks.length).2 hc,
          hnc⟩ h
  · intro k hk
    have hlt : countTerminal rm < info.subtasks.length :=
      lt_of_lt_of_le (countTerminal_lt_of_pending rm k hk) hlen
    have hne : codeProgress rm info.subtasks.length ≠ 1 :=
      ne_of_lt (codeProgress_lt_one rm info.subtasks.length hlt)
    constructor
    · simp only [StatusView.statusOf, statusFlip_status, Option.some_inj]
      rw [if_neg (fun hc => hne hc.1)]
      exact fun hc => hnc (Option.some_inj.1 hc)
    · intro q hq
      simp only [StatusView.progressOf, statusFlip_progress,
        Option.some_inj] at hq
      rw [← hq]
      exact codeProgress_lt_one rm info.subtasks.length hlt

/-- C6 (amended): the progress `get_task_status` reports is the number of
terminal (non-pending) entries — failures included — divided by the number
of subtasks, `0` when there are no subtasks. -/
theorem progress_counts_terminal (tid now : Nat) (s : SchedState)
    (info : TaskInfo) (rm : ResultMap) (htask : s.tasks tid = some info)
    (hrm : s.results tid = some rm) :
    (getTaskStatus tid now s).2.progressOf =
      some (codeProgress rm info.subtasks.length) := by
  rw [getTaskStatus_some tid now s info rm htask hrm]
  simp only [StatusView.progressOf, statusFlip_progress]

/-- C4 (amended): `execute_task` fails only on an unknown id; on any
registered task — whatever its current status, terminal ones included — it
sets the status to `executing` and returns the normal running view. -/
theorem execute_unguarded (ex : Subtask → Bool) (tid now : Nat)
    (s : SchedState) :
    (s.tasks tid = none → executeTask ex tid now s = (s, ExecView.notFound)) ∧
    (∀ info, s.tasks tid = some info →
      (executeTask ex tid now s).1.tasks tid =
        some { info with status := TaskStatus.executing } ∧
      ∃ q e, (executeTask ex tid now s).2 = ExecView.running q e) := by
  refine ⟨fun h => executeTask_none ex tid now s h, fun info h => ?_⟩
  rw [executeTask_some ex tid now s info h]
  constructor
  · rw [show (processTaskQueue ex (some tid) now (execMid tid now info s)).1.tasks
        = (execMid tid now info s).tasks from processTaskQueue_tasks ex _ now _]
    simp [execMid, updTask]
  · exact ⟨_, _, processTaskQueue_view ex (some tid) now _⟩

/-- C7: `cancel_task` fails with `TaskNotFound` on an unknown id and with
`AlreadyCompleted` on a completed task (both without touching the state);
otherwise, in one step, it sets the status to `cancelled`, stamps `end_time`
and drops exactly the queue items of this task, leaving the other tasks'
items and all other bookkeeping untouched. -/
theorem cancel_task_spec (tid now : Nat) (s : SchedState) :
    (s.tasks tid = none → cancelTask tid now s = (s, CancelView.notFound)) ∧
    (∀ info, s.tasks tid = some info → info.status = .completed →
      cancelTask tid now s = (s, CancelView.alreadyCompleted)) ∧
    (∀ info, s.tasks tid = some info → info.status ≠ .completed →
      (cancelTask tid now s).2 = CancelView.cancelled ∧
      (cancelTask tid now s).1.tasks tid =
        some { info with status := TaskStatus.cancelled, endTime := some now } ∧
      (∀ t, t ≠ tid → (cancelTask tid now s).1.tasks t = s.tasks t) ∧
      (cancelTask tid now s).1.queue =
        s.queue.filter (fun it => decide (it.taskId ≠ tid)) ∧
      (cancelTask tid now s).1.results = s.results ∧
      (cancelTask tid now s).1.completedTasks = s.completedTasks ∧
      (cancelTask tid now s).1.failedTasks = s.failedTasks) := by
  refine ⟨fun h => by simp only [cancelTask, h],
    fun info h hc => by simp only [cancelTask, h]; rw [if_pos hc],
    fun info h hc => ?_⟩
  simp only [cancelTask, h]
  rw [if_neg hc]
  refine ⟨rfl, by simp [updTask], fun t ht => by simp [updTask, ht], rfl,
    rfl, rfl, rfl⟩

/-- C8: the dispatch round never lets an executor error escape: it returns
the normal running view, writes each snapshot item's entry as its own
outcome — an error becomes a `failure` entry, its id joins `failed_tasks` —
and the sibling items of the same round are still executed, successes
landing as `success` entries in `completed_tasks`. -/
theorem subtask_failure_contained (ex : Subtask → Bool) (tid now : Nat)
    (s : SchedState)
    (hnd : ((snapOf (some tid) s).map (fun it => it.subtask.id)).Nodup) :
    (processTaskQueue ex (some tid) now s).2 =
      ExecView.running (processTaskQueue ex (some tid) now s).1.queue.length
        (snapOf (some tid) s).length ∧
    ∀ it ∈ snapOf (some tid) s,
      entryOf (processTaskQueue ex (some tid) now s).1 it.taskId
          it.subtask.id =
        some (if ex it.subtask then ResultEntry.success
          else ResultEntry.failure) ∧
      (ex it.subtask = false →
        it.subtask.id ∈ (processTaskQueue ex (some tid) now s).1.failedTasks) ∧
      (ex it.subtask = true →
        it.subtask.id ∈
          (processTaskQueue ex (some tid) now s).1.completedTasks) := by
  refine ⟨processTaskQueue_view ex (some tid) now s, fun it hit => ?_⟩
  refine ⟨?_, fun hex => ?_, fun hex => ?_⟩
  · exact processLoop_entry_exact ex now _ s it hit hnd
  · exact processLoop_failed_of_item ex now _ s it hit hex
  · exact processLoop_completed_of_item ex now _ s it hit hex

/-! ## Concrete runs -/

/-- Executor oracle of the concrete runs: action `0` returns, any other
action raises. -/
def exF : Subtask → Bool := fun st => st.action == 0

/-- A subtask whose execution raises. -/
def failSub : Subtask := ⟨10, [], 1⟩

/-- A subtask whose execution returns. -/
def okSub : Subtask := ⟨10, [], 0⟩

/-- A subtask depending on id `10`, itself fine. -/
def depSub : Subtask := ⟨11, [10], 0⟩

/-- A freshly decomposed task with one succeeding subtask. -/
def sReg : SchedState := decomposeTask 1 [okSub] 0 (initState 4)

/-- One task whose only subtask fails, decomposed and executed. -/
def sFail1 : SchedState :=
  (executeTask exF 1 1 (decomposeTask 1 [failSub] 0 (initState 4))).1

/-- The same task, freshly decomposed and not yet executed. -/
def sPend1 : SchedState := decomposeTask 1 [failSub] 0 (initState 4)

/-- A failing subtask plus a dependent of it, decomposed and executed:
entry `10` is `failure`, entry `11` stays pending. -/
def sMix : SchedState :=
  (executeTask exF 1 1 (decomposeTask 1 [failSub, depSub] 0 (initState 4))).1

/-- One succeeding subtask, executed, then observed by the status operation,
whose flip makes the task `completed`. -/
def sDone : SchedState :=
  (getTaskStatus 1 2 (executeTask exF 1 1
    (decomposeTask 1 [okSub] 0 (initState 4))).1).1

/-- Counterexample to C1 as stated: task 1's only subtask has a `failure`
entry, yet the status operation sets the status to `completed` and reports
progress `1.0` with `failed_subtasks = 1`. -/
theorem completed_despite_failure :
    entryOf sFail1 1 10 = some ResultEntry.failure ∧
    (getTaskStatus 1 2 sFail1).2.statusOf = some TaskStatus.completed ∧
    (getTaskStatus 1 2 sFail1).2.progressOf = some 1 ∧
    (getTaskStatus 1 2 sFail1).2.failedOf = some 1 ∧
    ((getTaskStatus 1 2 sFail1).1.tasks 1).map TaskInfo.status =
      some TaskStatus.completed := by
  have h1 : sFail1.tasks 1 =
      some (TaskInfo.mk [failSub] .executing 0 0 none) := by decide
  have h2 : sFail1.results 1 = some [(10, ResultEntry.failure)] := by decide
  have hcp : codeProgress [(10, ResultEntry.failure)]
      (TaskInfo.mk [failSub] .executing 0 0 none).subtasks.length = 1 := by
    unfold codeProgress
    rw [show countTerminal [(10, ResultEntry.failure)] = 1 from by decide]
    norm_num
  have hflip : statusFlip 2 (TaskInfo.mk [failSub] .executing 0 0 none) 1 =
      TaskInfo.mk [failSub] .completed 1 0 (some 2) := by
    unfold statusFlip
    rw [if_pos ⟨rfl, by decide⟩]
  rw [getTaskStatus_some 1 2 sFail1 _ _ h1 h2, hcp, hflip]
  refine ⟨by decide, rfl, rfl, ?_, ?_⟩
  · show some (countFailed sFail1.failedTasks [(10, ResultEntry.failure)]) =
      some 1
    rw [show countFailed sFail1.failedTasks [(10, ResultEntry.failure)] = 1
      from by decide]
  · simp [updTask]

theorem completion_counts_failures_witness :
    (((getTaskStatus 1 2 sPend1).2.statusOf = some TaskStatus.completed) ↔
      (0 < (TaskInfo.mk [failSub] .decomposed 0 0 none).subtasks.length ∧
        countTerminal [(10, ResultEntry.pending)] =
          (TaskInfo.mk [failSub] .decomposed 0 0 none).subtasks.length)) ∧
    (∀ k, (k, ResultEntry.pending) ∈ ([(10, ResultEntry.pending)] : ResultMap) →
      (getTaskStatus 1 2 sPend1).2.statusOf ≠ some TaskStatus.completed ∧
      ∀ q, (getTaskStatus 1 2 sPend1).2.progressOf = some q → q < 1) :=
  completion_counts_failures 1 2 sPend1 (TaskInfo.mk [failSub] .decomposed 0 0 none)
    [(10, ResultEntry.pending)] (by decide) (by decide) (by decide) (by decide)

/-- The success count of a result store — the quantity §4.4 of the
specification divides by the total (`completed_success_count`); written from
the specification's words, to compare with the code's `countTerminal`. -/
def countSuccess (rm : ResultMap) : Nat :=
  rm.countP (fun p => decide (p.2 = ResultEntry.success))

/-- The progress value the specification prescribes
(`completed_success_count / total_subtasks`, `0` when the total is `0`);
written from the specification's words, to compare with `codeProgress`. -/
def specProgress (rm : ResultMap) (total : Nat) : ℚ :=
  if 0 < total then (countSuccess rm : ℚ) / (total : ℚ) else 0

/-- Counterexample to C6 as stated: with one failed and one pending entry
the code reports progress `1/2` (the failure counts), while the
specification's success-only ratio is `0`. -/
theorem progress_differs_from_success_ratio :
    (getTaskStatus 1 2 sMix).2.progressOf = some (1 / 2 : ℚ) ∧
    specProgress ((sMix.results 1).getD []) 2 = 0 ∧ (1 / 2 : ℚ) ≠ 0 := by
  have h1 : sMix.tasks 1 =
      some (TaskInfo.mk [failSub, depSub] .executing 0 0 none) := by decide
  have h2 : sMix.results 1 =
      some [(10, ResultEntry.failure), (11, ResultEntry.pending)] := by decide
  have hcp : codeProgress [(10, ResultEntry.failure), (11, ResultEntry.pending)]
      (TaskInfo.mk [failSub, depSub] .executing 0 0 none).subtasks.length =
      1 / 2 := by
    unfold codeProgress
    rw [show countTerminal
        [(10, ResultEntry.failure), (11, ResultEntry.pending)] = 1
      from by decide]
    norm_num
  refine ⟨?_, ?_, by norm_num⟩
  · rw [getTaskStatus_some 1 2 sMix _ _ h1 h2]
    simp only [StatusView.progressOf, statusFlip_progress, hcp]
  · rw [h2]
    unfold specProgress
    rw [show countSuccess
        ((some [(10, ResultEntry.failure),
          (11, ResultEntry.pending)]).getD []) = 0
      from by decide]
    norm_num

theorem progress_counts_terminal_witness :
    (getTaskStatus 1 2 sMix).2.progressOf =
      some (codeProgress [(10, ResultEntry.failure), (11, ResultEntry.pending)]
        (TaskInfo.mk [failSub, depSub] .executing 0 0 none).subtasks.length) :=
  progress_counts_terminal 1 2 sMix
    (TaskInfo.mk [failSub, depSub] .executing 0 0 none)
    [(10, ResultEntry.failure), (11, ResultEntry.pending)]
    (by decide) (by decide)

theorem sDone_tasks :
    sDone.tasks 1 = some (TaskInfo.mk [okSub] .completed 1 0 (some 2)) := by
  have h1 : (executeTask exF 1 1 (decomposeTask 1 [okSub] 0 (initState 4))).1.tasks 1 =
      some (TaskInfo.mk [okSub] .executing 0 0 none) := by decide
  have h2 : (executeTask exF 1 1 (decomposeTask 1 [okSub] 0 (initState 4))).1.results 1 =
      some [(10, ResultEntry.success)] := by decide
  have hcp : codeProgress [(10, ResultEntry.success)]
      (TaskInfo.mk [okSub] .executing 0 0 none).subtasks.length = 1 := by
    unfold codeProgress
    rw [show countTerminal [(10, ResultEntry.success)] = 1 from by decide]
    norm_num
  have hflip : statusFlip 2 (TaskInfo.mk [okSub] .executing 0 0 none) 1 =
      TaskInfo.mk [okSub] .completed 1 0 (some 2) := by
    unfold statusFlip
    rw [if_pos ⟨rfl, by decide⟩]
  unfold sDone
  rw [getTaskStatus_some 1 2 _ _ _ h1 h2, hcp, hflip]
  simp [updTask]

/-- Counterexample to C4 as stated: calling `execute_task` on a `completed`
task is not a no-op — it flips the terminal status back to `executing`. -/
theorem execute_mutates_completed :
    (sDone.tasks 1).map TaskInfo.status = some TaskStatus.completed ∧
    ((executeTask exF 1 3 sDone).1.tasks 1).map TaskInfo.status =
      some TaskStatus.executing := by
  refine ⟨by rw [sDone_tasks]; rfl, ?_⟩
  rw [executeTask_some exF 1 3 sDone _ sDone_tasks]
  rw [show (processTaskQueue exF (some 1) 3
      (execMid 1 3 (TaskInfo.mk [okSub] .completed 1 0 (some 2)) sDone)).1.tasks
    = (execMid 1 3 (TaskInfo.mk [okSub] .completed 1 0 (some 2)) sDone).tasks
    from processTaskQueue_tasks exF _ 3 _]
  simp [execMid, updTask]

theorem execute_unguarded_witness :
    (executeTask exF 1 3 sReg).1.tasks 1 =
      some { TaskInfo.mk [okSub] .decomposed 0 0 none with
        status := TaskStatus.executing } ∧
    ∃ q e, (executeTask exF 1 3 sReg).2 = ExecView.running q e :=
  (execute_unguarded exF 1 3 sReg).2
    (TaskInfo.mk [okSub] .decomposed 0 0 none) (by decide)

theorem cancel_task_spec_witness :
    (cancelTask 1 5 sReg).2 = CancelView.cancelled ∧
    (cancelTask 1 5 sReg).1.tasks 1 =
      some { TaskInfo.mk [okSub] .decomposed 0 0 none with
        status := TaskStatus.cancelled, endTime := some 5 } ∧
    (∀ t, t ≠ 1 → (cancelTask 1 5 sReg).1.tasks t = sReg.tasks t) ∧
    (cancelTask 1 5 sReg).1.queue =
      sReg.queue.filter (fun it => decide (it.taskId ≠ 1)) ∧
    (cancelTask 1 5 sReg).1.results = sReg.results ∧
    (cancelTask 1 5 sReg).1.completedTasks = sReg.completedTasks ∧
    (cancelTask 1 5 sReg).1.failedTasks = sReg.failedTasks :=
  (cancel_task_spec 1 5 sReg).2.2 (TaskInfo.mk [okSub] .decomposed 0 0 none)
    (by decide) (by decide)

/-- A failing and a succeeding subtask of the same task, both queued. -/
def failSub2 : Subtask := ⟨20, [], 1⟩

def okSub2 : Subtask := ⟨21, [], 0⟩

/-- A scheduler state whose queue holds one failing and one succeeding item
of task 1. -/
def sQueued : SchedState :=
  { maxParallel := 4,
    tasks := fun t => if t = 1 then
        some (TaskInfo.mk [failSub2, okSub2] .executing 0 0 none) else none,
    results := fun t => if t = 1 then
        some [(20, .pending), (21, .pending)] else none,
    queue := [⟨1, failSub2, 0⟩, ⟨1, okSub2, 0⟩],
    completedTasks := [],
    failedTasks := [] }

/-! ## Reachability through the public operations -/

/-- One public operation applied with arbitrary arguments.  `get_task_results`
is a pure read and leaves the state unchanged, so it needs no case. -/
inductive Step : SchedState → SchedState → Prop
  | decompose (tid : Nat) (subs : List Subtask) (now : Nat) (s : SchedState) :
      Step s (decomposeTask tid subs now s)
  | execute (ex : Subtask → Bool) (tid now : Nat) (s : SchedState) :
      Step s (executeTask ex tid now s).1
  | status (tid now : Nat) (s : SchedState) :
      Step s (getTaskStatus tid now s).1
  | cancel (tid now : Nat) (s : SchedState) :
      Step s (cancelTask tid now s).1

/-- States reachable from a fresh instance by public operations. -/
def Reachable (maxP : Nat) (s : SchedState) : Prop :=
  Relation.ReflTransGen Step (initState maxP) s

theorem codeProgress_zero (rm : ResultMap) : codeProgress rm 0 = 0 := by
  unfold codeProgress
  simp

theorem getTaskStatus_fst (tid now : Nat) (s : SchedState) (info : TaskInfo)
    (htask : s.tasks tid = some info) :
    (getTaskStatus tid now s).1 =
      updTask tid (statusFlip now info
        (codeProgress ((s.results tid).getD []) info.subtasks.length)) s := by
  simp only [getTaskStatus, htask]

theorem getTaskStatus_snd (tid now : Nat) (s : SchedState) (info : TaskInfo)
    (htask : s.tasks tid = some info) :
    (getTaskStatus tid now s).2 =
      .found (statusFlip now info
          (codeProgress ((s.results tid).getD []) info.subtasks.length)).status
        (statusFlip now info
          (codeProgress ((s.results tid).getD []) info.subtasks.length)).progress
        (statusFlip now info
          (codeProgress ((s.results tid).getD []) info.subtasks.length)).startTime
        (statusFlip now info
          (codeProgress ((s.results tid).getD []) info.subtasks.length)).endTime
        (countTerminal ((s.results tid).getD [])) info.subtasks.length
        (countFailed s.failedTasks ((s.results tid).getD [])) := by
  simp only [getTaskStatus, htask]

theorem statusFlip_subtasks (now : Nat) (info : TaskInfo) (pr : ℚ) :
    (statusFlip now info pr).subtasks = info.subtasks := by
  unfold statusFlip
  by_cases h : pr = 1 ∧ info.status ≠ .completed <;> simp [h]

theorem cancelTask_fst (tid now : Nat) (s : SchedState) (info : TaskInfo)
    (htask : s.tasks tid = some info) (hnc : info.status ≠ .completed) :
    (cancelTask tid now s).1 =
      { updTask tid { info with status := .cancelled, endTime := some now } s
        with queue := s.queue.filter (fun it => decide (it.taskId ≠ tid)) } := by
  simp only [cancelTask, htask]
  rw [if_neg hnc]
  rfl

/-! ### C10: a task with no subtasks never completes -/

/-- The C10 invariant: a registered task with an empty subtask list never has
status `completed`. -/
def EmptyNotCompleted (s : SchedState) : Prop :=
  ∀ t info, s.tasks t = some info → info.subtasks = [] →
    info.status ≠ TaskStatus.completed

theorem step_emptyNotCompleted (h : Step s s') (hi : EmptyNotCompleted s) :
    EmptyNotCompleted s' := by
  cases h with
  | decompose tid subs now s =>
    intro t info htask hsubs
    unfold decomposeTask at htask
    simp only [updResults_tasks, updTask_tasks] at htask
    by_cases ht : t = tid
    · rw [if_pos ht] at htask
      cases htask
      exact fun hc => by cases hc
    · rw [if_neg ht] at htask
      exact hi t info htask hsubs
  | execute ex tid now s =>
    intro t info htask hsubs
    cases hreg : s.tasks tid with
    | none =>
      rw [executeTask_none ex tid now s hreg] at htask
      exact hi t info htask hsubs
    | some info0 =>
      rw [executeTask_some ex tid now s info0 hreg,
        congrFun (processTaskQueue_tasks ex (some tid) now _) t] at htask
      simp only [execMid, updTask_tasks] at htask
      by_cases ht : t = tid
      · rw [if_pos ht] at htask
        cases htask
        exact fun hc => by cases hc
      · rw [if_neg ht] at htask
        exact hi t info htask hsubs
  | status tid now s =>
    intro t info htask hsubs
    cases hreg : s.tasks tid with
    | none =>
      rw [getTaskStatus_none hreg] at htask
      exact hi t info htask hsubs
    | some info0 =>
      rw [getTaskStatus_fst tid now s info0 hreg] at htask
      simp only [updTask_tasks] at htask
      by_cases ht : t = tid
      · rw [if_pos ht] at htask
        cases htask
        intro hc
        have hs0 : info0.subtasks = [] := by
          rw [← statusFlip_subtasks now info0
            (codeProgress ((s.results tid).getD []) info0.subtasks.length)]
          exact hsubs
        rw [hs0, List.length_nil, codeProgress_zero] at hc
        unfold statusFlip at hc
        rw [if_neg (by norm_num)] at hc
        exact hi tid info0 hreg hs0 (by simpa using hc)
      · rw [if_neg ht] at htask
        exact hi t info htask hsubs
  | cancel tid now s =>
    intro t info htask hsubs
    cases hreg : s.tasks tid with
    | none =>
      have : cancelTask tid now s = (s, .notFound) := by
        simp only [cancelTask, hreg]
      rw [this] at htask
      exact hi t info htask hsubs
    | some info0 =>
      by_cases hc : info0.status = .completed
      · have : cancelTask tid now s = (s, .alreadyCompleted) := by
          simp only [cancelTask, hreg]
          rw [if_pos hc]
        rw [this] at htask
        exact hi t info htask hsubs
      · rw [cancelTask_fst tid now s info0 hreg hc] at htask
        simp only [updTask_tasks] at htask
        by_cases ht : t = tid
        · rw [if_pos ht] at htask
          cases htask
          exact fun hcon => by cases hcon
        · rw [if_neg ht] at htask
          exact hi t info htask hsubs

theorem reachable_emptyNotCompleted (maxP : Nat) (s : SchedState)
    (h : Reachable maxP s) : EmptyNotCompleted s := by
  induction h with
  | refl =>
    intro t info htask
    cases htask
  | tail _ hstep ih =>
    exact step_emptyNotCompleted hstep ih

/-- C10: for every reachable state, a registered task with an empty subtask
list never has the status `completed`; the status operation reports progress
`0` and never flips it, and the results operation returns the still-pending
reply. -/
theorem empty_task_never_completes (maxP : Nat) (s : SchedState)
    (hr : Reachable maxP s) (t : Nat) (info : TaskInfo)
    (htask : s.tasks t = some info) (hsubs : info.subtasks = []) :
    info.status ≠ TaskStatus.completed ∧
    (∀ now, (getTaskStatus t now s).2.statusOf ≠ some TaskStatus.completed ∧
      (getTaskStatus t now s).2.progressOf = some 0) ∧
    getTaskResults t s = ResultsView.stillPending info.status info.progress := by
  have hne : info.status ≠ TaskStatus.completed :=
    reachable_emptyNotCompleted maxP s hr t info htask hsubs
  have hcp : codeProgress ((s.results t).getD []) info.subtasks.length = 0 := by
    rw [hsubs, List.length_nil, codeProgress_zero]
  refine ⟨hne, fun now => ?_, ?_⟩
  · rw [getTaskStatus_snd t now s info htask]
    constructor
    · simp only [StatusView.statusOf, statusFlip_status, hcp, Option.some_inj]
      rw [if_neg (by norm_num)]
      exact fun hc => hne (Option.some_inj.1 hc)
    · simp only [StatusView.progressOf, statusFlip_progress, hcp]
  · unfold getTaskResults
    rw [htask]
    simp only []
    rw [if_pos hne]

theorem empty_task_never_completes_witness :
    ((TaskInfo.mk ([] : List Subtask) .decomposed 0 0 none).status ≠
      TaskStatus.completed) ∧
    (∀ now, (getTaskStatus 1 now
        (decomposeTask 1 [] 0 (initState 4))).2.statusOf ≠
        some TaskStatus.completed ∧
      (getTaskStatus 1 now
        (decomposeTask 1 [] 0 (initState 4))).2.progressOf = some 0) ∧
    getTaskResults 1 (decomposeTask 1 [] 0 (initState 4)) =
      ResultsView.stillPending
        (TaskInfo.mk ([] : List Subtask) .decomposed 0 0 none).status
        (TaskInfo.mk ([] : List Subtask) .decomposed 0 0 none).progress :=
  empty_task_never_completes 4 (decomposeTask 1 [] 0 (initState 4))
    (Relation.ReflTransGen.single (Step.decompose 1 [] 0 (initState 4)))
    1 (TaskInfo.mk [] .decomposed 0 0 none) (by decide) rfl

/-! ## Well-formed runs: fixed executor, disjoint and closed task graphs

The success/failure bookkeeping (`completed_tasks`, `failed_tasks`) is keyed
by subtask id alone and shared across tasks (see the C9 theorems), so the
per-task scheduling guarantees only hold for runs whose registered tasks use
pairwise disjoint id sets.  `GoodDecompose` captures the well-formedness of
one registration: a fresh task id, ids unique within the graph, ids disjoint
from every registered task, and no dangling dependency reference — the
TaskGraph invariants of the design. -/

def ids (subs : List Subtask) : List Nat := subs.map (·.id)

structure GoodDecompose (s : SchedState) (tid : Nat) (subs : List Subtask) :
    Prop where
  fresh : s.tasks tid = none
  nodup : (ids subs).Nodup
  disj : ∀ t info, s.tasks t = some info → ∀ i ∈ ids subs,
    i ∉ ids info.subtasks
  closed : ∀ st ∈ subs, ∀ d ∈ st.deps, d ∈ ids subs

/-- A public operation of a well-formed run: a fixed executor oracle and
well-formed registrations. -/
inductive StepU (ex : Subtask → Bool) : SchedState → SchedState → Prop
  | decompose (tid : Nat) (subs : List Subtask) (now : Nat) (s : SchedState)
      (h : GoodDecompose s tid subs) :
      StepU ex s (decomposeTask tid subs now s)
  | execute (tid now : Nat) (s : SchedState) :
      StepU ex s (executeTask ex tid now s).1
  | status (tid now : Nat) (s : SchedState) :
      StepU ex s (getTaskStatus tid now s).1
  | cancel (tid now : Nat) (s : SchedState) :
      StepU ex s (cancelTask tid now s).1

def ReachableU (ex : Subtask → Bool) (maxP : Nat) (s : SchedState) : Prop :=
  Relation.ReflTransGen (StepU ex) (initState maxP) s

/-- `x` depends on `y` in the graph `subs` (one edge). -/
def dependsOn (subs : List Subtask) (x y : Nat) : Prop :=
  ∃ st ∈ subs, st.id = x ∧ y ∈ st.deps

/-! ### List helpers for ids, `depsOf` and `initResults` -/

theorem mem_ids_of_mem {subs : List Subtask} (h : st ∈ subs) :
    st.id ∈ ids subs := List.mem_map.2 ⟨st, h, rfl⟩

theorem exists_of_mem_ids {subs : List Subtask} (h : c ∈ ids subs) :
    ∃ st ∈ subs, st.id = c := by
  obtain ⟨st, hst, hid⟩ := List.mem_map.1 h
  exact ⟨st, hst, hid⟩

theorem id_inj_of_nodup {subs : List Subtask} (hnd : (ids subs).Nodup)
    (ha : a ∈ subs) (hb : b ∈ subs) (hid : a.id = b.id) : a = b :=
  List.inj_on_of_nodup_map hnd ha hb hid

theorem find?_reverse_of_nodup {subs : List Subtask}
    (hnd : (ids subs).Nodup) (hmem : st ∈ subs) :
    subs.reverse.find? (fun x => x.id == st.id) = some st := by
  cases hf : subs.reverse.find? (fun x => x.id == st.id) with
  | none =>
    rw [List.find?_eq_none] at hf
    exact absurd (by simp : (st.id == st.id) = true)
      (hf st (List.mem_reverse.2 hmem))
  | some y =>
    have hy := List.find?_some hf
    have hmy : y ∈ subs := List.mem_reverse.1 (List.mem_of_find?_eq_some hf)
    have : y = st := id_inj_of_nodup hnd hmy hmem (by simpa using hy)
    rw [this]

theorem depsOf_eq_deps {subs : List Subtask} (hnd : (ids subs).Nodup)
    (hmem : st ∈ subs) : depsOf subs st.id = st.deps := by
  unfold depsOf
  rw [find?_reverse_of_nodup hnd hmem]
  rfl

theorem dedupKeys_mem (x : Nat) : ∀ (l : List Nat), x ∈ dedupKeys l ↔ x ∈ l
  | [] => by simp [dedupKeys]
  | y :: rest => by
    rw [dedupKeys]
    constructor
    · intro h
      rcases List.mem_cons.1 h with rfl | h2
      · exact List.mem_cons_self _ _
      · exact List.mem_cons_of_mem _
          ((dedupKeys_mem x rest).1 (List.mem_filter.1 h2).1)
    · intro h
      rcases List.mem_cons.1 h with rfl | h2
      · exact List.mem_cons_self _ _
      · by_cases hx : x = y
        · exact hx ▸ List.mem_cons_self _ _
        · exact List.mem_cons_of_mem _ (List.mem_filter.2
            ⟨(dedupKeys_mem x rest).2 h2, by simpa using hx⟩)

theorem dedupKeys_eq_self : ∀ (l : List Nat), l.Nodup → dedupKeys l = l
  | [], _ => rfl
  | x :: rest, hnd => by
    rw [dedupKeys, dedupKeys_eq_self rest (List.nodup_cons.1 hnd).2]
    rw [List.filter_eq_self.2]
    intro y hy
    have : y ≠ x := fun hc => (List.nodup_cons.1 hnd).1 (hc ▸ hy)
    simpa using this

theorem dictGet_const_map (k : Nat) (v : α) :
    ∀ (l : List Nat),
    dictGet k (l.map (fun x => (x, v))) = if k ∈ l then some v else none
  | [] => by simp [dictGet]
  | x :: rest => by
    by_cases hx : x = k
    · simp [dictGet, hx]
    · rw [List.map_cons, dictGet, if_neg hx, dictGet_const_map k v rest]
      by_cases hk : k ∈ rest <;> simp [hk, hx, Ne.symm hx]

theorem map_fst_pair (v : α) :
    ∀ (l : List Nat), (l.map (fun k => (k, v))).map (fun p => p.1) = l
  | [] => rfl
  | x :: rest => by
    rw [List.map_cons, List.map_cons, map_fst_pair v rest]

theorem initResults_get (subs : List Subtask) (k : Nat) :
    dictGet k (initResults subs) =
      if k ∈ ids subs then some ResultEntry.pending else none := by
  unfold initResults ids
  rw [dictGet_const_map]
  by_cases hk : k ∈ subs.map (fun x => x.id)
  · rw [if_pos ((dedupKeys_mem k _).2 hk), if_pos hk]
  · rw [if_neg (fun hc => hk ((dedupKeys_mem k _).1 hc)), if_neg hk]

theorem initResults_map_fst (subs : List Subtask)
    (hnd : (ids subs).Nodup) :
    (initResults subs).map (·.1) = ids subs := by
  unfold initResults
  rw [map_fst_pair]
  exact dedupKeys_eq_self _ hnd

theorem decomposeTask_tasks (t : Nat) :
    (decomposeTask tid subs now s).tasks t =
      if t = tid then
        some (TaskInfo.mk subs .decomposed 0 now none)
      else s.tasks t := rfl

theorem decomposeTask_results (t : Nat) :
    (decomposeTask tid subs now s).results t =
      if t = tid then some (initResults subs) else s.results t := rfl

theorem decomposeTask_queue :
    (decomposeTask tid subs now s).queue = s.queue := rfl

theorem decomposeTask_completed :
    (decomposeTask tid subs now s).completedTasks = s.completedTasks := rfl

theorem decomposeTask_failed :
    (decomposeTask tid subs now s).failedTasks = s.failedTasks := rfl

/-! ### The run invariant -/

/-- Everything the per-task scheduling claims need, as one inductive
invariant over well-formed runs with the fixed executor `ex`:

* `nodup`/`disj`/`closed` — the registered graphs are well formed;
* `reskeys` — a registered task's result store exists and its keys are
  exactly the graph's ids;
* `qtask` — every queue item carries a subtask of its registered task;
* `qdeps` — every queue item's dependencies are all in `completed_tasks`;
* `compOwner`/`failOwner` — every completed (failed) id belongs to a
  registered subtask whose execution succeeds (fails) under `ex`, with the
  matching entry in its task's store;
* `entrySet` — a `success`/`failure` entry implies membership in the
  matching global set;
* `termDeps` — a terminal entry's subtask has all dependencies completed;
* `compOrd` — along the completed list (newest first), each id's
  dependencies appear strictly later (were completed earlier);
* `quiG` — for an `executing` task with no queued items, every pending
  subtask still has an uncompleted dependency. -/
structure WInv (ex : Subtask → Bool) (s : SchedState) : Prop where
  nodup : ∀ t info, s.tasks t = some info → (ids info.subtasks).Nodup
  disj : ∀ t1 t2 info1 info2, t1 ≠ t2 → s.tasks t1 = some info1 →
    s.tasks t2 = some info2 → ∀ i ∈ ids info1.subtasks,
    i ∉ ids info2.subtasks
  closed : ∀ t info, s.tasks t = some info → ∀ st ∈ info.subtasks,
    ∀ d ∈ st.deps, d ∈ ids info.subtasks
  reskeys : ∀ t info, s.tasks t = some info → ∃ rm, s.results t = some rm ∧
    rm.map (·.1) = ids info.subtasks
  qtask : ∀ it ∈ s.queue, ∃ info, s.tasks it.taskId = some info ∧
    it.subtask ∈ info.subtasks
  qdeps : ∀ it ∈ s.queue, ∀ d ∈ it.subtask.deps, d ∈ s.completedTasks
  compOwner : ∀ c ∈ s.completedTasks, ∃ t info st, s.tasks t = some info ∧
    st ∈ info.subtasks ∧ st.id = c ∧ ex st = true ∧
    entryOf s t c = some ResultEntry.success
  failOwner : ∀ f ∈ s.failedTasks, ∃ t info st, s.tasks t = some info ∧
    st ∈ info.subtasks ∧ st.id = f ∧ ex st = false ∧
    entryOf s t f = some ResultEntry.failure
  entrySet : ∀ t info, s.tasks t = some info → ∀ st ∈ info.subtasks,
    (entryOf s t st.id = some ResultEntry.success →
      st.id ∈ s.completedTasks) ∧
    (entryOf s t st.id = some ResultEntry.failure → st.id ∈ s.failedTasks)
  termDeps : ∀ t info, s.tasks t = some info → ∀ st ∈ info.subtasks,
    (entryOf s t st.id = some ResultEntry.success ∨
      entryOf s t st.id = some ResultEntry.failure) →
    ∀ d ∈ st.deps, d ∈ s.completedTasks
  compOrd : ∀ L1 c L2, s.completedTasks = L1 ++ c :: L2 →
    ∀ t info st, s.tasks t = some info → st ∈ info.subtasks → st.id = c →
    ∀ d ∈ st.deps, d ∈ L2
  quiG : ∀ t info, s.tasks t = some info →
    info.status = TaskStatus.executing →
    (∀ it ∈ s.queue, it.taskId ≠ t) → ∀ st ∈ info.subtasks,
    entryOf s t st.id = some ResultEntry.pending →
    ∃ d ∈ st.deps, d ∉ s.completedTasks

theorem winv_init (ex : Subtask → Bool) (maxP : Nat) :
    WInv ex (initState maxP) := by
  refine ⟨?_, ?_, ?_, ?_, ?_, ?_, ?_, ?_, ?_, ?_, ?_, ?_⟩
  · intro t info h; cases h
  · intro t1 t2 info1 info2 _ h1; cases h1
  · intro t info h; cases h
  · intro t info h; cases h
  · intro it h; cases h
  · intro it h; cases h
  · intro c h; cases h
  · intro f h; cases h
  · intro t info h; cases h
  · intro t info h; cases h
  · intro L1 c L2 h
    exfalso
    cases L1 with
    | nil => exact List.noConfusion h
    | cons a as => exact List.noConfusion h
  · intro t info h; cases h

theorem entryOf_decompose_ne (h : t ≠ tid) :
    entryOf (decomposeTask tid subs now s) t k = entryOf s t k := by
  unfold entryOf
  rw [decomposeTask_results, if_neg h]

theorem entryOf_decompose_self :
    entryOf (decomposeTask tid subs now s) tid k =
      if k ∈ ids subs then some ResultEntry.pending else none := by
  unfold entryOf
  rw [decomposeTask_results, if_pos rfl, Option.getD_some, initResults_get]

theorem winv_decompose (ex : Subtask → Bool) (tid : Nat) (subs : List Subtask)
    (now : Nat) (s : SchedState) (hg : GoodDecompose s tid subs)
    (hw : WInv ex s) : WInv ex (decomposeTask tid subs now s) := by
  have howner_ne : ∀ t (info : TaskInfo), s.tasks t = some info → t ≠ tid := by
    intro t info h ht
    rw [ht, hg.fresh] at h
    cases h
  constructor
  case nodup =>
    intro t info htask
    rw [decomposeTask_tasks] at htask
    by_cases ht : t = tid
    · rw [if_pos ht] at htask
      cases htask
      exact hg.nodup
    · rw [if_neg ht] at htask
      exact hw.nodup t info htask
  case disj =>
    intro t1 t2 info1 info2 hne h1 h2 i hi
    rw [decomposeTask_tasks] at h1 h2
    by_cases ht1 : t1 = tid
    · rw [if_pos ht1] at h1
      cases h1
      rw [if_neg (fun hc => hne (ht1.trans hc.symm))] at h2
      exact hg.disj t2 info2 h2 i hi
    · rw [if_neg ht1] at h1
      by_cases ht2 : t2 = tid
      · rw [if_pos ht2] at h2
        cases h2
        exact fun hc => hg.disj t1 info1 h1 i hc hi
      · rw [if_neg ht2] at h2
        exact hw.disj t1 t2 info1 info2 hne h1 h2 i hi
  case closed =>
    intro t info htask
    rw [decomposeTask_tasks] at htask
    by_cases ht : t = tid
    · rw [if_pos ht] at htask
      cases htask
      exact hg.closed
    · rw [if_neg ht] at htask
      exact hw.closed t info htask
  case reskeys =>
    intro t info htask
    rw [decomposeTask_tasks] at htask
    by_cases ht : t = tid
    · rw [if_pos ht] at htask
      cases htask
      refine ⟨initResults subs, ?_, initResults_map_fst subs hg.nodup⟩
      rw [decomposeTask_results, if_pos ht]
    · rw [if_neg ht] at htask
      obtain ⟨rm, hrm, hkeys⟩ := hw.reskeys t info htask
      refine ⟨rm, ?_, hkeys⟩
      rw [decomposeTask_results, if_neg ht]
      exact hrm
  case qtask =>
    intro it hit
    rw [decomposeTask_queue] at hit
    obtain ⟨info, htask, hmem⟩ := hw.qtask it hit
    refine ⟨info, ?_, hmem⟩
    rw [decomposeTask_tasks, if_neg (howner_ne _ _ htask)]
    exact htask
  case qdeps =>
    intro it hit
    rw [decomposeTask_queue] at hit
    rw [decomposeTask_completed]
    exact hw.qdeps it hit
  case compOwner =>
    intro c hc
    rw [decomposeTask_completed] at hc
    obtain ⟨t, info, st, htask, hmem, hid, hex, hentry⟩ := hw.compOwner c hc
    refine ⟨t, info, st, ?_, hmem, hid, hex, ?_⟩
    · rw [decomposeTask_tasks, if_neg (howner_ne _ _ htask)]
      exact htask
    · rw [entryOf_decompose_ne (howner_ne _ _ htask)]
      exact hentry
  case failOwner =>
    intro f hf
    rw [decomposeTask_failed] at hf
    obtain ⟨t, info, st, htask, hmem, hid, hex, hentry⟩ := hw.failOwner f hf
    refine ⟨t, info, st, ?_, hmem, hid, hex, ?_⟩
    · rw [decomposeTask_tasks, if_neg (howner_ne _ _ htask)]
      exact htask
    · rw [entryOf_decompose_ne (howner_ne _ _ htask)]
      exact hentry
  case entrySet =>
    intro t info htask st hmem
    rw [decomposeTask_tasks] at htask
    by_cases ht : t = tid
    · rw [if_pos ht] at htask
      cases htask
      rw [ht, entryOf_decompose_self,
        if_pos (mem_ids_of_mem hmem)]
      exact ⟨fun hc => (by cases hc), fun hc => (by cases hc)⟩
    · rw [if_neg ht] at htask
      rw [entryOf_decompose_ne ht, decomposeTask_completed,
        decomposeTask_failed]
      exact hw.entrySet t info htask st hmem
  case termDeps =>
    intro t info htask st hmem hterm
    rw [decomposeTask_tasks] at htask
    by_cases ht : t = tid
    · rw [if_pos ht] at htask
      cases htask
      rw [ht, entryOf_decompose_self, if_pos (mem_ids_of_mem hmem)] at hterm
      rcases hterm with hc | hc <;> cases hc
    · rw [if_neg ht] at htask
      rw [entryOf_decompose_ne ht] at hterm
      rw [decomposeTask_completed]
      exact hw.termDeps t info htask st hmem hterm
  case compOrd =>
    intro L1 c L2 hsplit t info st htask hmem hid
    rw [decomposeTask_completed] at hsplit
    rw [decomposeTask_tasks] at htask
    by_cases ht : t = tid
    · rw [if_pos ht] at htask
      cases htask
      exfalso
      have hcmem : c ∈ s.completedTasks := by
        rw [hsplit]
        exact List.mem_append_right _ (List.mem_cons_self _ _)
      obtain ⟨t0, info0, st0, htask0, hmem0, hid0, -, -⟩ :=
        hw.compOwner c hcmem
      exact hg.disj t0 info0 htask0 c (hid ▸ mem_ids_of_mem hmem)
        (hid0 ▸ mem_ids_of_mem hmem0)
    · rw [if_neg ht] at htask
      exact hw.compOrd L1 c L2 hsplit t info st htask hmem hid
  case quiG =>
    intro t info htask hstat hqui st hmem hpend
    rw [decomposeTask_tasks] at htask
    by_cases ht : t = tid
    · rw [if_pos ht] at htask
      cases htask
      cases hstat
    · rw [if_neg ht] at htask
      rw [entryOf_decompose_ne ht] at hpend
      rw [decomposeTask_completed]
      refine hw.quiG t info htask hstat ?_ st hmem hpend
      intro it hit
      exact hqui it (by rw [decomposeTask_queue]; exact hit)

theorem winv_status (ex : Subtask → Bool) (tid now : Nat) (s : SchedState)
    (hw : WInv ex s) : WInv ex (getTaskStatus tid now s).1 := by
  cases hreg : s.tasks tid with
  | none =>
    rw [getTaskStatus_none hreg]
    exact hw
  | some info0 =>
    rw [getTaskStatus_fst tid now s info0 hreg]
    set flip := statusFlip now info0
      (codeProgress ((s.results tid).getD []) info0.subtasks.length) with hflip
    have hsubs : flip.subtasks = info0.subtasks := statusFlip_subtasks _ _ _
    have hentry : ∀ t k, entryOf (updTask tid flip s) t k = entryOf s t k :=
      fun t k => rfl
    have htasks : ∀ t info, (updTask tid flip s).tasks t = some info →
        ∃ info1, s.tasks t = some info1 ∧
          info.subtasks = info1.subtasks := by
      intro t info htask
      rw [updTask_tasks] at htask
      by_cases ht : t = tid
      · rw [if_pos ht] at htask
        cases htask
        exact ⟨info0, ht ▸ hreg, hsubs⟩
      · rw [if_neg ht] at htask
        exact ⟨info, htask, rfl⟩
    have htasks' : ∀ t (info1 : TaskInfo), s.tasks t = some info1 →
        ∃ info, (updTask tid flip s).tasks t = some info ∧
          info.subtasks = info1.subtasks := by
      intro t info1 htask
      rw [updTask_tasks]
      by_cases ht : t = tid
      · refine ⟨flip, by rw [if_pos ht], ?_⟩
        rw [hsubs]
        rw [ht] at htask
        rw [hreg] at htask
        cases htask
        rfl
      · exact ⟨info1, by rw [if_neg ht]; exact htask, rfl⟩
    constructor
    case nodup =>
      intro t info htask
      obtain ⟨info1, h1, h2⟩ := htasks t info htask
      rw [h2]
      exact hw.nodup t info1 h1
    case disj =>
      intro t1 t2 info1 info2 hne h1 h2
      obtain ⟨j1, hj1, he1⟩ := htasks t1 info1 h1
      obtain ⟨j2, hj2, he2⟩ := htasks t2 info2 h2
      rw [he1, he2]
      exact hw.disj t1 t2 j1 j2 hne hj1 hj2
    case closed =>
      intro t info htask
      obtain ⟨j, hj, he⟩ := htasks t info htask
      rw [he]
      exact hw.closed t j hj
    case reskeys =>
      intro t info htask
      obtain ⟨j, hj, he⟩ := htasks t info htask
      obtain ⟨rm, hrm, hkeys⟩ := hw.reskeys t j hj
      exact ⟨rm, hrm, by rw [he]; exact hkeys⟩
    case qtask =>
      intro it hit
      obtain ⟨j, hj, hmem⟩ := hw.qtask it hit
      obtain ⟨info, hinfo, he⟩ := htasks' it.taskId j hj
      exact ⟨info, hinfo, by rw [he]; exact hmem⟩
    case qdeps =>
      exact hw.qdeps
    case compOwner =>
      intro c hc
      obtain ⟨t, j, st, hj, hmem, hid, hex, hent⟩ := hw.compOwner c hc
      obtain ⟨info, hinfo, he⟩ := htasks' t j hj
      exact ⟨t, info, st, hinfo, by rw [he]; exact hmem, hid, hex,
        (hentry t c).trans hent⟩
    case failOwner =>
      intro f hf
      obtain ⟨t, j, st, hj, hmem, hid, hex, hent⟩ := hw.failOwner f hf
      obtain ⟨info, hinfo, he⟩ := htasks' t j hj
      exact ⟨t, info, st, hinfo, by rw [he]; exact hmem, hid, hex,
        (hentry t f).trans hent⟩
    case entrySet =>
      intro t info htask st hmem
      obtain ⟨j, hj, he⟩ := htasks t info htask
      rw [he] at hmem
      rw [hentry]
      exact hw.entrySet t j hj st hmem
    case termDeps =>
      intro t info htask st hmem hterm
      obtain ⟨j, hj, he⟩ := htasks t info htask
      rw [he] at hmem
      rw [hentry] at hterm
      exact hw.termDeps t j hj st hmem hterm
    case compOrd =>
      intro L1 c L2 hsplit t info st htask hmem hid
      obtain ⟨j, hj, he⟩ := htasks t info htask
      rw [he] at hmem
      exact hw.compOrd L1 c L2 hsplit t j st hj hmem hid
    case quiG =>
      intro t info htask hstat hqui st hmem hpend
      rw [updTask_tasks] at htask
      by_cases ht : t = tid
      · rw [if_pos ht] at htask
        cases htask
        rw [hsubs] at hmem
        rw [hentry] at hpend
        refine hw.quiG t info0 (ht ▸ hreg) ?_ hqui st hmem (ht ▸ hpend)
        rw [hflip] at hstat
        unfold statusFlip at hstat
        by_cases hcond : codeProgress ((s.results tid).getD [])
            info0.subtasks.length = 1 ∧
            info0.status ≠ TaskStatus.completed
        · rw [if_pos hcond] at hstat
          cases hstat
        · rw [if_neg hcond] at hstat
          exact hstat
      · rw [if_neg ht] at htask
        rw [hentry] at hpend
        exact hw.quiG t info htask hstat hqui st hmem hpend

theorem winv_cancel (ex : Subtask → Bool) (tid now : Nat) (s : SchedState)
    (hw : WInv ex s) : WInv ex (cancelTask tid now s).1 := by
  cases hreg : s.tasks tid with
  | none =>
    have : cancelTask tid now s = (s, .notFound) := by
      simp only [cancelTask, hreg]
    rw [this]
    exact hw
  | some info0 =>
    by_cases hcomp : info0.status = .completed
    · have : cancelTask tid now s = (s, .alreadyCompleted) := by
        simp only [cancelTask, hreg]
        rw [if_pos hcomp]
      rw [this]
      exact hw
    · rw [cancelTask_fst tid now s info0 hreg hcomp]
      set cinfo : TaskInfo :=
        { info0 with status := .cancelled, endTime := some now } with hcinfo
      have hsubs : cinfo.subtasks = info0.subtasks := rfl
      have hentry : ∀ t k,
          entryOf { updTask tid cinfo s with
            queue := s.queue.filter (fun it => decide (it.taskId ≠ tid)) } t k =
          entryOf s t k := fun t k => rfl
      have htasks : ∀ t info,
          ({ updTask tid cinfo s with
            queue := s.queue.filter
              (fun it => decide (it.taskId ≠ tid)) }).tasks t = some info →
          ∃ info1, s.tasks t = some info1 ∧
            info.subtasks = info1.subtasks := by
        intro t info htask
        have : (updTask tid cinfo s).tasks t = some info := htask
        rw [updTask_tasks] at this
        by_cases ht : t = tid
        · rw [if_pos ht] at this
          cases this
          exact ⟨info0, ht ▸ hreg, rfl⟩
        · rw [if_neg ht] at this
          exact ⟨info, this, rfl⟩
      have htasks' : ∀ t (info1 : TaskInfo), s.tasks t = some info1 →
          ∃ info, ({ updTask tid cinfo s with
            queue := s.queue.filter
              (fun it => decide (it.taskId ≠ tid)) }).tasks t = some info ∧
            info.subtasks = info1.subtasks := by
        intro t info1 htask
        show ∃ info, (updTask tid cinfo s).tasks t = some info ∧ _
        rw [updTask_tasks]
        by_cases ht : t = tid
        · refine ⟨cinfo, by rw [if_pos ht], ?_⟩
          rw [ht, hreg] at htask
          cases htask
          rfl
        · exact ⟨info1, by rw [if_neg ht]; exact htask, rfl⟩
      have hqueue : ∀ it, it ∈ ({ updTask tid cinfo s with
          queue := s.queue.filter
            (fun it => decide (it.taskId ≠ tid)) }).queue →
          it ∈ s.queue ∧ it.taskId ≠ tid := by
        intro it hit
        have h2 := List.mem_filter.1 hit
        exact ⟨h2.1, of_decide_eq_true h2.2⟩
      refine ⟨?_, ?_, ?_, ?_, ?_, ?_, ?_, ?_, ?_, ?_, ?_, ?_⟩
      ·
        intro t info htask
        obtain ⟨j, hj, he⟩ := htasks t info htask
        rw [he]
        exact hw.nodup t j hj
      ·
        intro t1 t2 info1 info2 hne h1 h2
        obtain ⟨j1, hj1, he1⟩ := htasks t1 info1 h1
        obtain ⟨j2, hj2, he2⟩ := htasks t2 info2 h2
        rw [he1, he2]
        exact hw.disj t1 t2 j1 j2 hne hj1 hj2
      ·
        intro t info htask
        obtain ⟨j, hj, he⟩ := htasks t info htask
        rw [he]
        exact hw.closed t j hj
      ·
        intro t info htask
        obtain ⟨j, hj, he⟩ := htasks t info htask
        obtain ⟨rm, hrm, hkeys⟩ := hw.reskeys t j hj
        exact ⟨rm, hrm, by rw [he]; exact hkeys⟩
      ·
        intro it hit
        obtain ⟨hit', -⟩ := hqueue it hit
        obtain ⟨j, hj, hmem⟩ := hw.qtask it hit'
        obtain ⟨info, hinfo, he⟩ := htasks' it.taskId j hj
        exact ⟨info, hinfo, by rw [he]; exact hmem⟩
      ·
        intro it hit
        obtain ⟨hit', -⟩ := hqueue it hit
        exact hw.qdeps it hit'
      ·
        intro c hc
        obtain ⟨t, j, st, hj, hmem, hid, hex, hent⟩ := hw.compOwner c hc
        obtain ⟨info, hinfo, he⟩ := htasks' t j hj
        exact ⟨t, info, st, hinfo, by rw [he]; exact hmem, hid, hex, hent⟩
      ·
        intro f hf
        obtain ⟨t, j, st, hj, hmem, hid, hex, hent⟩ := hw.failOwner f hf
        obtain ⟨info, hinfo, he⟩ := htasks' t j hj
        exact ⟨t, info, st, hinfo, by rw [he]; exact hmem, hid, hex, hent⟩
      ·
        intro t info htask st hmem
        obtain ⟨j, hj, he⟩ := htasks t info htask
        rw [he] at hmem
        exact hw.entrySet t j hj st hmem
      ·
        intro t info htask st hmem hterm
        obtain ⟨j, hj, he⟩ := htasks t info htask
        rw [he] at hmem
        exact hw.termDeps t j hj st hmem hterm
      ·
        intro L1 c L2 hsplit t info st htask hmem hid
        obtain ⟨j, hj, he⟩ := htasks t info htask
        rw [he] at hmem
        exact hw.compOrd L1 c L2 hsplit t j st hj hmem hid
      ·
        intro t info htask hstat hqui st hmem hpend
        have htask2 : (updTask tid cinfo s).tasks t = some info := htask
        rw [updTask_tasks] at htask2
        by_cases ht : t = tid
        · rw [if_pos ht] at htask2
          cases htask2
          cases hstat
        · rw [if_neg ht] at htask2
          refine hw.quiG t info htask2 hstat ?_ st hmem hpend
          intro it hit
          by_cases hid2 : it.taskId = tid
          · rw [hid2]
            exact fun hc => ht hc.symm
          · refine hqui it ?_
            exact List.mem_filter.2 ⟨hit, by simpa using hid2⟩

/-! ### Ownership helpers -/

/-- With disjoint, duplicate-free graphs, a subtask id determines its task
and its subtask record. -/
theorem owner_unique (hw : WInv ex s) (h1 : s.tasks t1 = some i1)
    (h2 : s.tasks t2 = some i2) (hm1 : st1 ∈ i1.subtasks)
    (hm2 : st2 ∈ i2.subtasks) (hid : st1.id = st2.id) :
    t1 = t2 ∧ st1 = st2 := by
  by_cases ht : t1 = t2
  · subst ht
    rw [h1] at h2
    cases h2
    exact ⟨rfl, id_inj_of_nodup (hw.nodup t1 i1 h1) hm1 hm2 hid⟩
  · exact absurd (hid ▸ mem_ids_of_mem hm2)
      (hw.disj t1 t2 i1 i2 ht h1 h2 st1.id (mem_ids_of_mem hm1))

theorem completed_entry (hw : WInv ex s) (htask : s.tasks t = some info)
    (hmem : st ∈ info.subtasks) (hc : st.id ∈ s.completedTasks) :
    entryOf s t st.id = some ResultEntry.success ∧ ex st = true := by
  obtain ⟨t0, i0, st0, ht0, hm0, hid0, hex0, hentry0⟩ := hw.compOwner _ hc
  obtain ⟨hteq, hsteq⟩ := owner_unique hw ht0 htask hm0 hmem hid0
  subst hteq
  subst hsteq
  exact ⟨hentry0, hex0⟩

theorem failed_entry (hw : WInv ex s) (htask : s.tasks t = some info)
    (hmem : st ∈ info.subtasks) (hf : st.id ∈ s.failedTasks) :
    entryOf s t st.id = some ResultEntry.failure ∧ ex st = false := by
  obtain ⟨t0, i0, st0, ht0, hm0, hid0, hex0, hentry0⟩ := hw.failOwner _ hf
  obtain ⟨hteq, hsteq⟩ := owner_unique hw ht0 htask hm0 hmem hid0
  subst hteq
  subst hsteq
  exact ⟨hentry0, hex0⟩

/-- Grounding: every completed id of a task leads, down the dependency
chains recorded in completion order, to a zero-dependency subtask of the
same task that is completed and succeeds under the oracle. -/
theorem ground_aux (hw : WInv ex s) (htask : s.tasks tid = some info) :
    ∀ (L : List Nat), (∃ L0, s.completedTasks = L0 ++ L) →
    ∀ c ∈ L, c ∈ ids info.subtasks →
    ∃ st0 ∈ info.subtasks, st0.deps = [] ∧ st0.id ∈ s.completedTasks ∧
      ex st0 = true
  | [], _, c, hc, _ => by cases hc
  | x :: L', hsplit, c, hc, hcid => by
    rcases List.mem_cons.1 hc with rfl | hc'
    · obtain ⟨stc, hmemc, hidc⟩ := exists_of_mem_ids hcid
      obtain ⟨L0, hL0⟩ := hsplit
      have hcomp : c ∈ s.completedTasks := by
        rw [hL0]
        exact List.mem_append_right _ (List.mem_cons_self _ _)
      have hdeps : ∀ d ∈ stc.deps, d ∈ L' :=
        hw.compOrd L0 c L' hL0 tid info stc htask hmemc hidc
      cases hdepnil : stc.deps with
      | nil =>
        refine ⟨stc, hmemc, hdepnil, hidc ▸ hcomp, ?_⟩
        exact (completed_entry hw htask hmemc (hidc ▸ hcomp)).2
      | cons d ds =>
        have hd : d ∈ L' := hdeps d (by rw [hdepnil]; exact .head _)
        have hdid : d ∈ ids info.subtasks :=
          hw.closed tid info htask stc hmemc d
            (by rw [hdepnil]; exact .head _)
        exact ground_aux hw htask L' ⟨L0 ++ [c], by rw [hL0]; simp⟩ d hd hdid
    · obtain ⟨L0, hL0⟩ := hsplit
      exact ground_aux hw htask L' ⟨L0 ++ [x], by rw [hL0]; simp⟩ c hc' hcid

theorem ground (hw : WInv ex s) (htask : s.tasks tid = some info)
    (hc : c ∈ s.completedTasks) (hcid : c ∈ ids info.subtasks) :
    ∃ st0 ∈ info.subtasks, st0.deps = [] ∧ st0.id ∈ s.completedTasks ∧
      ex st0 = true :=
  ground_aux hw htask s.completedTasks ⟨[], rfl⟩ c hc hcid

theorem mem_eraseItem_sub (x y : QueueItem) :
    ∀ (l : List QueueItem), x ∈ eraseItem y l → x ∈ l
  | [], h => h
  | z :: rest, h => by
    rw [eraseItem] at h
    by_cases hz : z = y
    · rw [if_pos hz] at h
      exact .tail _ h
    · rw [if_neg hz] at h
      rcases List.mem_cons.1 h with rfl | h2
      · exact .head _
      · exact .tail _ (mem_eraseItem_sub x y rest h2)

theorem mem_removeAll_sub (x : QueueItem) :
    ∀ (items q : List QueueItem), x ∈ removeAll items q → x ∈ q
  | [], q, h => h
  | i :: rest, q, h =>
    mem_eraseItem_sub x i q (mem_removeAll_sub x rest (eraseItem i q) h)

/-- One dispatch of a queued item preserves the run invariant. -/
theorem winv_execOne (ex : Subtask → Bool) (now : Nat) (item : QueueItem)
    (s : SchedState) (hw : WInv ex s) (hitem : item ∈ s.queue) :
    WInv ex (execOne ex now item s) := by
  obtain ⟨infoI, htaskI, hmemI⟩ := hw.qtask item hitem
  have htasks := execOne_tasks ex now item s
  have hcomp := execOne_completed ex now item s
  have hfail := execOne_failed ex now item s
  have hdepsI : ∀ d ∈ item.subtask.deps, d ∈ s.completedTasks :=
    hw.qdeps item hitem
  obtain ⟨app, happ, happrop⟩ := execOne_queue ex now item s
  constructor
  case nodup =>
    intro t info htask
    rw [htasks] at htask
    exact hw.nodup t info htask
  case disj =>
    intro t1 t2 i1 i2 hne h1 h2
    rw [htasks] at h1 h2
    exact hw.disj t1 t2 i1 i2 hne h1 h2
  case closed =>
    intro t info htask
    rw [htasks] at htask
    exact hw.closed t info htask
  case reskeys =>
    intro t info htask
    rw [htasks] at htask
    obtain ⟨rm, hrm, hkeys⟩ := hw.reskeys t info htask
    by_cases ht : t = item.taskId
    · subst ht
      have hinfoeq : info = infoI := by
        rw [htask] at htaskI
        exact Option.some_inj.1 htaskI
      refine ⟨dictInsert item.subtask.id
        (if ex item.subtask then .success else .failure) rm, ?_, ?_⟩
      · rw [execOne_results, if_pos rfl, hrm, Option.getD_some]
      · rw [dictInsert_keys, if_pos]
        · exact hkeys
        · rw [hkeys, hinfoeq]
          exact mem_ids_of_mem hmemI
    · refine ⟨rm, ?_, hkeys⟩
      rw [execOne_results, if_neg ht]
      exact hrm
  case qtask =>
    intro it hit
    rw [happ] at hit
    rcases List.mem_append.1 hit with h | h
    · obtain ⟨info, hi, hm⟩ := hw.qtask it h
      exact ⟨info, by rw [htasks]; exact hi, hm⟩
    · obtain ⟨ht, htime, info, hi, hm, hd⟩ := happrop it h
      refine ⟨info, ?_, hm⟩
      rw [htasks, ht]
      exact hi
  case qdeps =>
    intro it hit
    rw [happ] at hit
    rcases List.mem_append.1 hit with h | h
    · intro d hd
      have hmem := hw.qdeps it h d hd
      rw [hcomp]
      by_cases hex : ex item.subtask
      · rw [if_pos hex]
        exact setAdd_sub _ _ hmem
      · rw [if_neg hex]
        exact hmem
    · obtain ⟨ht, htime, info, hi, hm, hd⟩ := happrop it h
      have hdd : depsOf info.subtasks it.subtask.id = it.subtask.deps :=
        depsOf_eq_deps (hw.nodup _ info hi) hm
      intro d hdm
      exact hd d (by rw [hdd]; exact hdm)
  case compOwner =>
    intro c hc
    rw [hcomp] at hc
    by_cases hex : ex item.subtask
    · rw [if_pos hex] at hc
      rcases (mem_setAdd _ _).1 hc with rfl | hold
      · refine ⟨item.taskId, infoI, item.subtask,
          by rw [htasks]; exact htaskI, hmemI, rfl, hex, ?_⟩
        rw [entryOf_execOne, if_pos ⟨rfl, rfl⟩, if_pos hex]
      · obtain ⟨t, info, st, hti, hm, hid, hexi, hent⟩ := hw.compOwner c hold
        refine ⟨t, info, st, by rw [htasks]; exact hti, hm, hid, hexi, ?_⟩
        rw [entryOf_execOne]
        by_cases hcond : t = item.taskId ∧ c = item.subtask.id
        · rw [if_pos hcond, if_pos hex]
        · rw [if_neg hcond]
          exact hent
    · rw [if_neg hex] at hc
      obtain ⟨t, info, st, hti, hm, hid, hexi, hent⟩ := hw.compOwner c hc
      refine ⟨t, info, st, by rw [htasks]; exact hti, hm, hid, hexi, ?_⟩
      rw [entryOf_execOne]
      by_cases hcond : t = item.taskId ∧ c = item.subtask.id
      · exfalso
        obtain ⟨hteq, hsteq⟩ := owner_unique hw hti htaskI hm hmemI
          (by rw [hid, hcond.2])
        rw [hsteq] at hexi
        exact hex hexi
      · rw [if_neg hcond]
        exact hent
  case failOwner =>
    intro f hf
    rw [hfail] at hf
    by_cases hex : ex item.subtask
    · rw [if_pos hex] at hf
      obtain ⟨t, info, st, hti, hm, hid, hexi, hent⟩ := hw.failOwner f hf
      refine ⟨t, info, st, by rw [htasks]; exact hti, hm, hid, hexi, ?_⟩
      rw [entryOf_execOne]
      by_cases hcond : t = item.taskId ∧ f = item.subtask.id
      · exfalso
        obtain ⟨hteq, hsteq⟩ := owner_unique hw hti htaskI hm hmemI
          (by rw [hid, hcond.2])
        rw [hsteq] at hexi
        rw [hexi] at hex
        exact Bool.noConfusion hex
      · rw [if_neg hcond]
        exact hent
    · rw [if_neg hex] at hf
      rcases (mem_setAdd _ _).1 hf with rfl | hold
      · refine ⟨item.taskId, infoI, item.subtask,
          by rw [htasks]; exact htaskI, hmemI, rfl, by simpa using hex, ?_⟩
        rw [entryOf_execOne, if_pos ⟨rfl, rfl⟩, if_neg hex]
      · obtain ⟨t, info, st, hti, hm, hid, hexi, hent⟩ := hw.failOwner f hold
        refine ⟨t, info, st, by rw [htasks]; exact hti, hm, hid, hexi, ?_⟩
        rw [entryOf_execOne]
        by_cases hcond : t = item.taskId ∧ f = item.subtask.id
        · rw [if_pos hcond, if_neg hex]
        · rw [if_neg hcond]
          exact hent
  case entrySet =>
    intro t info htask st hmem
    rw [htasks] at htask
    rw [entryOf_execOne]
    by_cases hcond : t = item.taskId ∧ st.id = item.subtask.id
    · rw [if_pos hcond]
      by_cases hex : ex item.subtask
      · rw [if_pos hex]
        constructor
        · intro _
          rw [hcomp, if_pos hex, hcond.2]
          exact setAdd_self _ _
        · intro hcontra
          simp at hcontra
      · rw [if_neg hex]
        constructor
        · intro hcontra
          simp at hcontra
        · intro _
          rw [hfail, if_neg hex, hcond.2]
          exact setAdd_self _ _
    · rw [if_neg hcond]
      have hold := hw.entrySet t info htask st hmem
      constructor
      · intro h
        rw [hcomp]
        by_cases hex : ex item.subtask
        · rw [if_pos hex]
          exact setAdd_sub _ _ (hold.1 h)
        · rw [if_neg hex]
          exact hold.1 h
      · intro h
        rw [hfail]
        by_cases hex : ex item.subtask
        · rw [if_pos hex]
          exact hold.2 h
        · rw [if_neg hex]
          exact setAdd_sub _ _ (hold.2 h)
  case termDeps =>
    intro t info htask st hmem hterm
    rw [htasks] at htask
    rw [entryOf_execOne] at hterm
    by_cases hcond : t = item.taskId ∧ st.id = item.subtask.id
    · have hinfoeq : info = infoI := by
        rw [hcond.1] at htask
        rw [htask] at htaskI
        exact Option.some_inj.1 htaskI
      have hsteq : st = item.subtask :=
        id_inj_of_nodup (hw.nodup _ infoI htaskI) (hinfoeq ▸ hmem) hmemI
          hcond.2
      intro d hd
      rw [hsteq] at hd
      have hmem2 := hdepsI d hd
      rw [hcomp]
      by_cases hex : ex item.subtask
      · rw [if_pos hex]
        exact setAdd_sub _ _ hmem2
      · rw [if_neg hex]
        exact hmem2
    · rw [if_neg hcond] at hterm
      intro d hd
      have hmem2 := hw.termDeps t info htask st hmem hterm d hd
      rw [hcomp]
      by_cases hex : ex item.subtask
      · rw [if_pos hex]
        exact setAdd_sub _ _ hmem2
      · rw [if_neg hex]
        exact hmem2
  case compOrd =>
    intro L1 c L2 hsplit t info st htask hmem hid
    rw [htasks] at htask
    rw [hcomp] at hsplit
    by_cases hex : ex item.subtask
    · rw [if_pos hex] at hsplit
      rcases setAdd_cases item.subtask.id s.completedTasks with hca | hca
      · rw [hca] at hsplit
        exact hw.compOrd L1 c L2 hsplit t info st htask hmem hid
      · rw [hca] at hsplit
        cases L1 with
        | nil =>
          have h1 : item.subtask.id = c := by
            injection hsplit
          have h2 : s.completedTasks = L2 := by
            injection hsplit with _ h2
          obtain ⟨hteq, hsteq⟩ := owner_unique hw htask htaskI hmem hmemI
            (by rw [hid, ← h1])
          intro d hd
          rw [← h2]
          rw [hsteq] at hd
          exact hdepsI d hd
        | cons a L1' =>
          have h2 : s.completedTasks = L1' ++ c :: L2 := by
            injection hsplit with _ h2
          exact hw.compOrd L1' c L2 h2 t info st htask hmem hid
    · rw [if_neg hex] at hsplit
      exact hw.compOrd L1 c L2 hsplit t info st htask hmem hid
  case quiG =>
    intro t info htask hstat hqui st hmem hpend
    rw [htasks] at htask
    have hquiS : ∀ it ∈ s.queue, it.taskId ≠ t := by
      intro it hit2
      refine hqui it ?_
      rw [happ]
      exact List.mem_append_left _ hit2
    have hitT : item.taskId ≠ t := hquiS item hitem
    have hpendS : entryOf s t st.id = some ResultEntry.pending := by
      rw [entryOf_execOne, if_neg (fun hc => hitT hc.1.symm)] at hpend
      exact hpend
    obtain ⟨d, hd, hdnc⟩ := hw.quiG t info htask hstat hquiS st hmem hpendS
    refine ⟨d, hd, ?_⟩
    rw [hcomp]
    by_cases hex : ex item.subtask
    · rw [if_pos hex]
      intro hdc
      rcases (mem_setAdd _ _).1 hdc with heq | hold
      · have hd1 : d ∈ ids info.subtasks := hw.closed t info htask st hmem d hd
        have hd2 : d ∈ ids infoI.subtasks := by
          rw [heq]
          exact mem_ids_of_mem hmemI
        exact hw.disj t item.taskId info infoI (fun hc => hitT hc.symm)
          htask htaskI _ hd1 hd2
      · exact hdnc hold
    · rw [if_neg hex]
      exact hdnc

/-- The dispatch loop preserves the run invariant when every snapshot item
is in the queue. -/
theorem winv_processLoop (ex : Subtask → Bool) (now : Nat) :
    ∀ (R : List QueueItem) (s : SchedState), WInv ex s →
    (∀ it ∈ R, it ∈ s.queue) → WInv ex (processLoop ex now R s)
  | [], _, hw, _ => hw
  | it :: rest, s, hw, hR => by
    rw [processLoop]
    refine winv_processLoop ex now rest _
      (winv_execOne ex now it s hw (hR it (List.mem_cons_self _ _))) ?_
    intro x hx
    exact execOne_queue_mono ex now it s x (hR x (List.mem_cons_of_mem _ hx))

theorem execMid_tasks (tid now : Nat) (info : TaskInfo) (s : SchedState)
    (t : Nat) :
    (execMid tid now info s).tasks t =
      if t = tid then some { info with status := .executing }
      else s.tasks t := rfl

theorem execMid_results (tid now : Nat) (info : TaskInfo) (s : SchedState) :
    (execMid tid now info s).results = s.results := rfl

theorem execMid_queue (tid now : Nat) (info : TaskInfo) (s : SchedState) :
    (execMid tid now info s).queue = s.queue ++ initQueued tid now info := rfl

theorem execMid_completed (tid now : Nat) (info : TaskInfo) (s : SchedState) :
    (execMid tid now info s).completedTasks = s.completedTasks := rfl

theorem execMid_failed (tid now : Nat) (info : TaskInfo) (s : SchedState) :
    (execMid tid now info s).failedTasks = s.failedTasks := rfl

theorem execMid_maxParallel (tid now : Nat) (info : TaskInfo)
    (s : SchedState) :
    (execMid tid now info s).maxParallel = s.maxParallel := rfl

theorem entryOf_execMid (tid now : Nat) (info : TaskInfo) (s : SchedState)
    (t k : Nat) : entryOf (execMid tid now info s) t k = entryOf s t k := rfl

theorem mem_initQueued {tid now : Nat} {info : TaskInfo} {it : QueueItem} :
    it ∈ initQueued tid now info ↔
      ∃ st ∈ info.subtasks, depsOf info.subtasks st.id = [] ∧
        (⟨tid, st, now⟩ : QueueItem) = it := by
  unfold initQueued
  simp
  exact ⟨fun ⟨a, ⟨h1, h2⟩, h3⟩ => ⟨a, h1, h2, h3⟩,
    fun ⟨a, h1, h2, h3⟩ => ⟨a, ⟨h1, h2⟩, h3⟩⟩

/-- The status write and initial enqueue of `execute_task` preserve the run
invariant. -/
theorem winv_execMid (ex : Subtask → Bool) (tid now : Nat) (s : SchedState)
    (info : TaskInfo) (htask : s.tasks tid = some info) (hw : WInv ex s) :
    WInv ex (execMid tid now info s) := by
  have htget : ∀ t info2, (execMid tid now info s).tasks t = some info2 →
      (t = tid ∧ info2 = { info with status := .executing }) ∨
      (t ≠ tid ∧ s.tasks t = some info2) := by
    intro t info2 h
    rw [execMid_tasks] at h
    by_cases ht : t = tid
    · rw [if_pos ht] at h
      exact .inl ⟨ht, (Option.some_inj.1 h).symm⟩
    · rw [if_neg ht] at h
      exact .inr ⟨ht, h⟩
  have hsubs : ∀ t info2, (execMid tid now info s).tasks t = some info2 →
      ∃ info1, s.tasks t = some info1 ∧ info2.subtasks = info1.subtasks := by
    intro t info2 h
    rcases htget t info2 h with ⟨rfl, rfl⟩ | ⟨_, h2⟩
    · exact ⟨info, htask, rfl⟩
    · exact ⟨info2, h2, rfl⟩
  have hback : ∀ t info1, s.tasks t = some info1 →
      ∃ info2, (execMid tid now info s).tasks t = some info2 ∧
        info2.subtasks = info1.subtasks := by
    intro t info1 h
    rw [execMid_tasks]
    by_cases ht : t = tid
    · subst ht
      rw [h] at htask
      refine ⟨{ info with status := .executing }, by rw [if_pos rfl], ?_⟩
      rw [Option.some_inj.1 htask]
    · exact ⟨info1, by rw [if_neg ht]; exact h, rfl⟩
  constructor
  case nodup =>
    intro t info2 h
    obtain ⟨info1, h1, hs⟩ := hsubs t info2 h
    rw [hs]
    exact hw.nodup t info1 h1
  case disj =>
    intro t1 t2 i1 i2 hne h1 h2
    obtain ⟨j1, hj1, hs1⟩ := hsubs t1 i1 h1
    obtain ⟨j2, hj2, hs2⟩ := hsubs t2 i2 h2
    rw [hs1, hs2]
    exact hw.disj t1 t2 j1 j2 hne hj1 hj2
  case closed =>
    intro t info2 h
    obtain ⟨info1, h1, hs⟩ := hsubs t info2 h
    rw [hs]
    exact hw.closed t info1 h1
  case reskeys =>
    intro t info2 h
    obtain ⟨info1, h1, hs⟩ := hsubs t info2 h
    obtain ⟨rm, hrm, hkeys⟩ := hw.reskeys t info1 h1
    exact ⟨rm, by rw [execMid_results]; exact hrm, by rw [hs]; exact hkeys⟩
  case qtask =>
    intro it hit
    rw [execMid_queue] at hit
    rcases List.mem_append.1 hit with h | h
    · obtain ⟨info1, h1, hm⟩ := hw.qtask it h
      obtain ⟨info2, h2, hs⟩ := hback it.taskId info1 h1
      exact ⟨info2, h2, by rw [hs]; exact hm⟩
    · obtain ⟨st, hmem, -, heq⟩ := mem_initQueued.1 h
      refine ⟨{ info with status := .executing }, ?_, ?_⟩
      · rw [← heq, execMid_tasks, if_pos rfl]
      · rw [← heq]
        exact hmem
  case qdeps =>
    intro it hit
    rw [execMid_queue] at hit
    rw [execMid_completed]
    rcases List.mem_append.1 hit with h | h
    · exact hw.qdeps it h
    · obtain ⟨st, hmem, hdeps, heq⟩ := mem_initQueued.1 h
      rw [depsOf_eq_deps (hw.nodup tid info htask) hmem] at hdeps
      intro d hd
      rw [← heq] at hd
      rw [hdeps] at hd
      cases hd
  case compOwner =>
    intro c hc
    rw [execMid_completed] at hc
    obtain ⟨t, info1, st, ht1, hm, hid, hexi, hent⟩ := hw.compOwner c hc
    obtain ⟨info2, h2, hs⟩ := hback t info1 ht1
    exact ⟨t, info2, st, h2, by rw [hs]; exact hm, hid, hexi,
      by rw [entryOf_execMid]; exact hent⟩
  case failOwner =>
    intro f hf
    rw [execMid_failed] at hf
    obtain ⟨t, info1, st, ht1, hm, hid, hexi, hent⟩ := hw.failOwner f hf
    obtain ⟨info2, h2, hs⟩ := hback t info1 ht1
    exact ⟨t, info2, st, h2, by rw [hs]; exact hm, hid, hexi,
      by rw [entryOf_execMid]; exact hent⟩
  case entrySet =>
    intro t info2 h st hmem
    obtain ⟨info1, h1, hs⟩ := hsubs t info2 h
    rw [hs] at hmem
    rw [entryOf_execMid, execMid_completed, execMid_failed]
    exact hw.entrySet t info1 h1 st hmem
  case termDeps =>
    intro t info2 h st hmem hterm
    obtain ⟨info1, h1, hs⟩ := hsubs t info2 h
    rw [hs] at hmem
    rw [entryOf_execMid] at hterm
    rw [execMid_completed]
    exact hw.termDeps t info1 h1 st hmem hterm
  case compOrd =>
    intro L1 c L2 hsplit t info2 st h hmem hid
    rw [execMid_completed] at hsplit
    obtain ⟨info1, h1, hs⟩ := hsubs t info2 h
    rw [hs] at hmem
    exact hw.compOrd L1 c L2 hsplit t info1 st h1 hmem hid
  case quiG =>
    intro t info2 h hstat hqui st hmem hpend
    rw [entryOf_execMid] at hpend
    rw [execMid_completed]
    rcases htget t info2 h with ⟨hteq, hieq⟩ | ⟨hne, hts⟩
    · rw [hieq] at hmem
      by_contra hnone
      push_neg at hnone
      have hall : ∀ d ∈ st.deps, d ∈ s.completedTasks := hnone
      have hnd := hw.nodup tid info htask
      cases hdep : st.deps with
      | nil =>
        have hinq : (⟨tid, st, now⟩ : QueueItem) ∈ initQueued tid now info :=
          mem_initQueued.2 ⟨st, hmem, by rw [depsOf_eq_deps hnd hmem, hdep],
            rfl⟩
        exact hqui ⟨tid, st, now⟩
          (by rw [execMid_queue]; exact List.mem_append_right _ hinq)
          hteq.symm
      | cons d ds =>
        have hdc : d ∈ s.completedTasks :=
          hall d (by rw [hdep]; exact .head _)
        have hdid : d ∈ ids info.subtasks :=
          hw.closed tid info htask st hmem d (by rw [hdep]; exact .head _)
        obtain ⟨st0, hm0, hdep0, -, -⟩ := ground hw htask hdc hdid
        have hinq : (⟨tid, st0, now⟩ : QueueItem) ∈ initQueued tid now info :=
          mem_initQueued.2 ⟨st0, hm0, by rw [depsOf_eq_deps hnd hm0, hdep0],
            rfl⟩
        exact hqui ⟨tid, st0, now⟩
          (by rw [execMid_queue]; exact List.mem_append_right _ hinq)
          hteq.symm
    · have hquiS : ∀ it ∈ s.queue, it.taskId ≠ t := by
        intro it hit
        refine hqui it ?_
        rw [execMid_queue]
        exact List.mem_append_left _ hit
      exact hw.quiG t info2 hts hstat hquiS st hmem hpend

/-- If after the dispatch loop a subtask of the filtered task is still
pending although all its dependencies are completed and no queue item
carries its id, then the same already held before the loop and every
snapshot item failed: a successful item would have re-queued the subtask
through `_queue_dependent_subtasks`. -/
theorem loop_pending_unlocked (ex : Subtask → Bool) (now tid : Nat)
    (st : Subtask) (infoE : TaskInfo) (hmem : st ∈ infoE.subtasks) :
    ∀ (R : List QueueItem) (u : SchedState), WInv ex u →
    (∀ it ∈ R, it ∈ u.queue) → (∀ it ∈ R, it.taskId = tid) →
    u.tasks tid = some infoE →
    entryOf (processLoop ex now R u) tid st.id = some ResultEntry.pending →
    (∀ d ∈ st.deps, d ∈ (processLoop ex now R u).completedTasks) →
    (∀ it ∈ (processLoop ex now R u).queue, it.subtask.id ≠ st.id) →
    entryOf u tid st.id = some ResultEntry.pending ∧
    (∀ d ∈ st.deps, d ∈ u.completedTasks) ∧
    (∀ it ∈ u.queue, it.subtask.id ≠ st.id) ∧
    (∀ y ∈ R, ex y.subtask = false)
  | [], u, _, _, _, _, hpend, hdeps, hnoq =>
    ⟨hpend, hdeps, hnoq, fun y hy => absurd hy (List.not_mem_nil _)⟩
  | y :: rest, u, hw, hR, hT, htask, hpend, hdeps, hnoq => by
    rw [processLoop] at hpend hdeps hnoq
    have hy : y ∈ u.queue := hR y (List.mem_cons_self _ _)
    have hyT : y.taskId = tid := hT y (List.mem_cons_self _ _)
    have hw' : WInv ex (execOne ex now y u) := winv_execOne ex now y u hw hy
    have hR' : ∀ it ∈ rest, it ∈ (execOne ex now y u).queue := fun it h =>
      execOne_queue_mono ex now y u it (hR it (List.mem_cons_of_mem _ h))
    have hT' : ∀ it ∈ rest, it.taskId = tid := fun it h =>
      hT it (List.mem_cons_of_mem _ h)
    have htask' : (execOne ex now y u).tasks tid = some infoE := by
      rw [execOne_tasks]
      exact htask
    obtain ⟨hpend', hdeps', hnoq', hfail'⟩ :=
      loop_pending_unlocked ex now tid st infoE hmem rest (execOne ex now y u)
        hw' hR' hT' htask' hpend hdeps hnoq
    by_cases hex : ex y.subtask
    · exfalso
      have heq : execOne ex now y u =
          queueDependentSubtasks y.taskId y.subtask.id now
            { writeEntry y.taskId y.subtask.id ResultEntry.success u with
              completedTasks := setAdd y.subtask.id u.completedTasks } := by
        unfold execOne
        rw [if_pos hex]
        rfl
      have hqd := QD_spec y.taskId y.subtask.id now
        { writeEntry y.taskId y.subtask.id ResultEntry.success u with
          completedTasks := setAdd y.subtask.id u.completedTasks }
      have hcompU : (execOne ex now y u).completedTasks =
          setAdd y.subtask.id u.completedTasks := by
        rw [heq]
        exact hqd.2.2.1
      have hfailU : (execOne ex now y u).failedTasks = u.failedTasks := by
        rw [heq]
        exact hqd.2.2.2.1
      have h1 : st.id ∉ setAdd y.subtask.id u.completedTasks := by
        intro hcin
        have hin' : st.id ∈ (execOne ex now y u).completedTasks := by
          rw [hcompU]
          exact hcin
        have hce := (completed_entry hw' htask' hmem hin').1
        rw [hpend'] at hce
        exact ResultEntry.noConfusion (Option.some_inj.1 hce)
      have h2 : st.id ∉ u.failedTasks := by
        intro hfin
        have hin' : st.id ∈ (execOne ex now y u).failedTasks := by
          rw [hfailU]
          exact hfin
        have hfe := (failed_entry hw' htask' hmem hin').1
        rw [hpend'] at hfe
        exact ResultEntry.noConfusion (Option.some_inj.1 hfe)
      have h3 : ∀ d ∈ depsOf infoE.subtasks st.id,
          d ∈ setAdd y.subtask.id u.completedTasks := by
        rw [depsOf_eq_deps (hw.nodup tid infoE htask) hmem]
        intro d hd
        rw [← hcompU]
        exact hdeps' d hd
      obtain ⟨it, hitq, hitid⟩ := QD_complete y.taskId y.subtask.id now
        { writeEntry y.taskId y.subtask.id ResultEntry.success u with
          completedTasks := setAdd y.subtask.id u.completedTasks }
        infoE st (by rw [hyT]; exact htask) hmem h1 h2 h3
      rw [← heq] at hitq
      exact hnoq' it hitq hitid
    · refine ⟨?_, ?_, ?_, ?_⟩
      · rw [entryOf_execOne] at hpend'
        by_cases hc : tid = y.taskId ∧ st.id = y.subtask.id
        · rw [if_pos hc, if_neg hex] at hpend'
          exact absurd (Option.some_inj.1 hpend') (by simp)
        · rw [if_neg hc] at hpend'
          exact hpend'
      · have hcu : (execOne ex now y u).completedTasks = u.completedTasks := by
          rw [execOne_completed, if_neg hex]
        intro d hd
        rw [← hcu]
        exact hdeps' d hd
      · intro it hit
        exact hnoq' it (execOne_queue_mono ex now y u it hit)
      · intro z hz
        rcases List.mem_cons.1 hz with rfl | hz'
        · exact Bool.eq_false_iff.2 hex
        · exact hfail' z hz'

/-- `execute_task` preserves the run invariant. -/
theorem winv_execute (ex : Subtask → Bool) (tid now : Nat) (s : SchedState)
    (hw : WInv ex s) : WInv ex (executeTask ex tid now s).1 := by
  cases htask : s.tasks tid with
  | none =>
    rw [executeTask_none ex tid now s htask]
    exact hw
  | some info =>
    rw [executeTask_some ex tid now s info htask, processTaskQueue_fst]
    set sM := execMid tid now info s with hsM
    set snap := snapOf (some tid) sM with hsnap
    set sL := processLoop ex now snap sM with hsL
    have hwM : WInv ex sM := winv_execMid ex tid now s info htask hw
    have hsnapQ : ∀ it ∈ snap, it ∈ sM.queue := fun it h =>
      (snapOf_mem tid sM it h).2
    have hsnapT : ∀ it ∈ snap, it.taskId = tid := fun it h =>
      (snapOf_mem tid sM it h).1
    have hwL : WInv ex sL := winv_processLoop ex now snap sM hwM hsnapQ
    have htasksL : sL.tasks = sM.tasks := processLoop_tasks ex now snap sM
    have hq2 : ∀ it, it ∈ removeAll snap sL.queue → it ∈ sL.queue :=
      fun it h => mem_removeAll_sub it snap sL.queue h
    constructor
    case nodup => exact hwL.nodup
    case disj => exact hwL.disj
    case closed => exact hwL.closed
    case reskeys => exact hwL.reskeys
    case qtask =>
      intro it hit
      exact hwL.qtask it (hq2 it hit)
    case qdeps =>
      intro it hit
      exact hwL.qdeps it (hq2 it hit)
    case compOwner => exact hwL.compOwner
    case failOwner => exact hwL.failOwner
    case entrySet => exact hwL.entrySet
    case termDeps => exact hwL.termDeps
    case compOrd => exact hwL.compOrd
    case quiG =>
      intro t info2 htask2 hstat hqui st hmem hpend
      have htask2' : sL.tasks t = some info2 := htask2
      have hpend' : entryOf sL t st.id = some ResultEntry.pending := hpend
      by_cases ht : t = tid
      · have ht2 : tid = t := ht.symm
        subst ht2
        have hinfo2 : info2 = { info with status := .executing } := by
          rw [htasksL, execMid_tasks, if_pos rfl] at htask2'
          exact (Option.some_inj.1 htask2').symm
        have hmemI : st ∈ info.subtasks := by
          rw [hinfo2] at hmem
          exact hmem
        by_contra hnone
        push_neg at hnone
        have hall : ∀ d ∈ st.deps, d ∈ sL.completedTasks := hnone
        have hnoq : ∀ it ∈ sL.queue, it.subtask.id ≠ st.id := by
          intro it hit hid
          obtain ⟨infoQ, htaskQ, hmemQ⟩ := hwL.qtask it hit
          obtain ⟨hteq, hsteq⟩ := owner_unique hwL htaskQ htask2' hmemQ
            hmem hid
          have hnotin : it ∉ removeAll snap sL.queue := by
            intro hin
            exact hqui it hin hteq
          have hcnt : ¬ countItem it snap < countItem it sL.queue := by
            intro hlt
            exact hnotin (removeAll_survive snap sL.queue it hlt)
          have hpos : 0 < countItem it sL.queue :=
            (countItem_pos_iff it sL.queue).2 hit
          have hinsnap : it ∈ snap :=
            (countItem_pos_iff it snap).1 (by omega)
          have hterm := processLoop_entry_written ex now snap sM it hinsnap
          rw [← hsL, hteq, hid, hpend'] at hterm
          rcases hterm with hterm | hterm
          · exact ResultEntry.noConfusion (Option.some_inj.1 hterm)
          · exact ResultEntry.noConfusion (Option.some_inj.1 hterm)
        have htaskM : sM.tasks tid = some info2 := by
          rw [← htasksL]
          exact htask2'
        obtain ⟨hpendM, hdepsM, hnoqM, hfailS⟩ :=
          loop_pending_unlocked ex now tid st info2 hmem snap sM hwM
            hsnapQ hsnapT htaskM hpend' hall hnoq
        have hndI := hw.nodup tid info htask
        cases hdep : st.deps with
        | nil =>
          have hinq : (⟨tid, st, now⟩ : QueueItem) ∈ initQueued tid now info :=
            mem_initQueued.2 ⟨st, hmemI,
              by rw [depsOf_eq_deps hndI hmemI, hdep], rfl⟩
          refine hnoqM ⟨tid, st, now⟩ ?_ rfl
          rw [hsM, execMid_queue]
          exact List.mem_append_right _ hinq
        | cons d ds =>
          have hdc : d ∈ s.completedTasks := by
            have := hdepsM d (by rw [hdep]; exact .head _)
            rw [hsM, execMid_completed] at this
            exact this
          have hdid : d ∈ ids info.subtasks :=
            hw.closed tid info htask st hmemI d (by rw [hdep]; exact .head _)
          obtain ⟨st0, hm0, hdep0, -, hex0⟩ := ground hw htask hdc hdid
          have hinq : (⟨tid, st0, now⟩ : QueueItem) ∈
              initQueued tid now info :=
            mem_initQueued.2 ⟨st0, hm0,
              by rw [depsOf_eq_deps hndI hm0, hdep0], rfl⟩
          have hinM : (⟨tid, st0, now⟩ : QueueItem) ∈ sM.queue := by
            rw [hsM, execMid_queue]
            exact List.mem_append_right _ hinq
          have hinL : (⟨tid, st0, now⟩ : QueueItem) ∈ sL.queue :=
            processLoop_queue_mono ex now snap sM _ hinM
          have hnotin : (⟨tid, st0, now⟩ : QueueItem) ∉
              removeAll snap sL.queue := by
            intro hin
            exact hqui _ hin rfl
          have hcnt : ¬ countItem (⟨tid, st0, now⟩ : QueueItem) snap <
              countItem (⟨tid, st0, now⟩ : QueueItem) sL.queue := by
            intro hlt
            exact hnotin (removeAll_survive snap sL.queue _ hlt)
          have hpos : 0 < countItem (⟨tid, st0, now⟩ : QueueItem) sL.queue :=
            (countItem_pos_iff _ sL.queue).2 hinL
          have hinsnap : (⟨tid, st0, now⟩ : QueueItem) ∈ snap :=
            (countItem_pos_iff _ snap).1 (by omega)
          have := hfailS _ hinsnap
          rw [hex0] at this
          exact Bool.noConfusion this
      · have hquiL : ∀ it ∈ sL.queue, it.taskId ≠ t := by
          intro it hit hteq
          have hnotsnap : countItem it snap = 0 := by
            by_contra hc
            have : it ∈ snap := (countItem_pos_iff it snap).1 (by omega)
            exact ht (hteq ▸ hsnapT it this)
          have hpos : 0 < countItem it sL.queue :=
            (countItem_pos_iff it sL.queue).2 hit
          have hin2 : it ∈ removeAll snap sL.queue :=
            removeAll_survive snap sL.queue it (by omega)
          exact hqui it hin2 hteq
        exact hwL.quiG t info2 htask2' hstat hquiL st hmem hpend'

/-- Every well-formed public operation preserves the run invariant. -/
theorem stepU_winv (ex : Subtask → Bool) {s s' : SchedState}
    (h : StepU ex s s') (hw : WInv ex s) : WInv ex s' := by
  cases h with
  | decompose tid subs now s hg => exact winv_decompose ex tid subs now s hg hw
  | execute tid now s => exact winv_execute ex tid now s hw
  | status tid now s => exact winv_status ex tid now s hw
  | cancel tid now s => exact winv_cancel ex tid now s hw

/-- The run invariant holds in every state reachable by well-formed public
operations. -/
theorem reachableU_winv (ex : Subtask → Bool) (maxP : Nat) (s : SchedState)
    (h : ReachableU ex maxP s) : WInv ex s := by
  induction h with
  | refl => exact winv_init ex maxP
  | tail _ hstep ih => exact stepU_winv ex hstep ih

/-- No id is in both global sets: the fixed oracle would have to both
return and raise on the unique owning subtask. -/
theorem comp_fail_disjoint (hw : WInv ex s) (hc : x ∈ s.completedTasks)
    (hf : x ∈ s.failedTasks) : False := by
  obtain ⟨t1, i1, st1, h1, m1, id1, ex1, -⟩ := hw.compOwner x hc
  obtain ⟨t2, i2, st2, h2, m2, id2, ex2, -⟩ := hw.failOwner x hf
  obtain ⟨-, hst⟩ := owner_unique hw h1 h2 m1 m2 (id1.trans id2.symm)
  rw [hst] at ex1
  rw [ex1] at ex2
  exact Bool.noConfusion ex2

/-- Every subtask of a registered task has a result slot. -/
theorem entry_exists (hw : WInv ex s) (htask : s.tasks t = some info)
    (hmem : st ∈ info.subtasks) : ∃ e, entryOf s t st.id = some e := by
  obtain ⟨rm, hrm, hkeys⟩ := hw.reskeys t info htask
  unfold entryOf
  rw [hrm, Option.getD_some]
  exact dictGet_isSome_of_mem (by rw [hkeys]; exact mem_ids_of_mem hmem)

theorem pending_not_completed (hw : WInv ex s) (htask : s.tasks t = some info)
    (hmem : st ∈ info.subtasks)
    (hpend : entryOf s t st.id = some ResultEntry.pending) :
    st.id ∉ s.completedTasks := by
  intro hc
  have h := (completed_entry hw htask hmem hc).1
  rw [hpend] at h
  exact ResultEntry.noConfusion (Option.some_inj.1 h)

/-- A subtask one of whose dependencies is not globally completed is still
pending and absent from the queue. -/
theorem blocked_step (hw : WInv ex s) (htask : s.tasks t = some info)
    (hxy : dependsOn info.subtasks x y) (hy : y ∉ s.completedTasks) :
    entryOf s t x = some ResultEntry.pending ∧
    ∀ it ∈ s.queue, it.subtask.id ≠ x := by
  obtain ⟨stx, hmx, hidx, hymem⟩ := hxy
  constructor
  · obtain ⟨e, he⟩ := entry_exists hw htask hmx
    rw [hidx] at he
    cases e with
    | pending => exact he
    | success =>
      exact absurd (hw.termDeps t info htask stx hmx
        (Or.inl (by rw [hidx]; exact he)) y hymem) hy
    | failure =>
      exact absurd (hw.termDeps t info htask stx hmx
        (Or.inr (by rw [hidx]; exact he)) y hymem) hy
  · intro it hit hid
    obtain ⟨infoQ, htaskQ, hmemQ⟩ := hw.qtask it hit
    obtain ⟨hteq, hsteq⟩ := owner_unique hw htaskQ htask hmemQ hmx
      (by rw [hid, hidx])
    exact hy (hw.qdeps it hit y (by rw [hsteq]; exact hymem))

/-- A subtask that depends, directly or through a chain, on a subtask whose
entry is a failure is still pending and absent from the queue. -/
theorem failed_ancestor_blocked (hw : WInv ex s)
    (htask : s.tasks t = some info) {x f : Nat}
    (hchain : Relation.TransGen (dependsOn info.subtasks) x f)
    (hf : entryOf s t f = some ResultEntry.failure) :
    entryOf s t x = some ResultEntry.pending ∧
    ∀ it ∈ s.queue, it.subtask.id ≠ x := by
  induction hchain using Relation.TransGen.head_induction_on with
  | @base x0 hedge =>
    have hfnc : f ∉ s.completedTasks := by
      intro hc
      obtain ⟨stx0, hmx0, hidx0, hfm⟩ := hedge
      have hfid : f ∈ ids info.subtasks :=
        hw.closed t info htask stx0 hmx0 f hfm
      obtain ⟨stf, hmf, hidf⟩ := exists_of_mem_ids hfid
      have hff : stf.id ∈ s.failedTasks :=
        (hw.entrySet t info htask stf hmf).2 (by rw [hidf]; exact hf)
      exact comp_fail_disjoint hw hc (hidf ▸ hff)
    exact blocked_step hw htask hedge hfnc
  | @ih x0 c hedge hchain2 ihp =>
    have hcnotc : c ∉ s.completedTasks := by
      obtain ⟨stx0, hmx0, hidx0, hcm⟩ := hedge
      have hcid : c ∈ ids info.subtasks :=
        hw.closed t info htask stx0 hmx0 c hcm
      obtain ⟨stc, hmc, hidc⟩ := exists_of_mem_ids hcid
      intro hc
      exact pending_not_completed hw htask hmc (by rw [hidc]; exact ihp.1)
        (hidc ▸ hc)
    exact blocked_step hw htask hedge hcnotc

/-- Infinite descent along the completion order: a nonempty id set in which
every member has a dependency inside the set has no completed member. -/
theorem cyc_not_completed_aux (hw : WInv ex s) (htask : s.tasks t = some info)
    (cyc : List Nat)
    (hcyc : ∀ c ∈ cyc, ∃ st ∈ info.subtasks, st.id = c ∧
      ∃ d ∈ st.deps, d ∈ cyc) :
    ∀ (L : List Nat), (∃ L0, s.completedTasks = L0 ++ L) →
    ∀ c ∈ L, c ∈ cyc → False
  | [], _, c, hc, _ => absurd hc (List.not_mem_nil c)
  | x :: L', hsplit, c, hc, hccyc => by
    rcases List.mem_cons.1 hc with rfl | hc'
    · obtain ⟨L0, hL0⟩ := hsplit
      obtain ⟨st, hmem, hid, d, hd, hdc⟩ := hcyc c hccyc
      have hdL : d ∈ L' :=
        hw.compOrd L0 c L' hL0 t info st htask hmem hid d hd
      exact cyc_not_completed_aux hw htask cyc hcyc L'
        ⟨L0 ++ [c], by rw [hL0]; simp⟩ d hdL hdc
    · obtain ⟨L0, hL0⟩ := hsplit
      exact cyc_not_completed_aux hw htask cyc hcyc L'
        ⟨L0 ++ [x], by rw [hL0]; simp⟩ c hc' hccyc

/-- Members of a self-dependent id set of a registered task never get a
terminal entry. -/
theorem cyc_pending (hw : WInv ex s) (htask : s.tasks t = some info)
    (cyc : List Nat)
    (hcyc : ∀ c ∈ cyc, ∃ st ∈ info.subtasks, st.id = c ∧
      ∃ d ∈ st.deps, d ∈ cyc) :
    ∀ c ∈ cyc, entryOf s t c = some ResultEntry.pending := by
  intro c hccyc
  obtain ⟨st, hmem, hid, d, hd, hdc⟩ := hcyc c hccyc
  obtain ⟨e, he⟩ := entry_exists hw htask hmem
  rw [hid] at he
  cases e with
  | pending => exact he
  | success =>
    exfalso
    have hcin : st.id ∈ s.completedTasks :=
      (hw.entrySet t info htask st hmem).1 (by rw [hid]; exact he)
    exact cyc_not_completed_aux hw htask cyc hcyc s.completedTasks
      ⟨[], rfl⟩ c (hid ▸ hcin) hccyc
  | failure =>
    exfalso
    have hdin : d ∈ s.completedTasks :=
      hw.termDeps t info htask st hmem
        (Or.inr (by rw [hid]; exact he)) d hd
    exact cyc_not_completed_aux hw htask cyc hcyc s.completedTasks
      ⟨[], rfl⟩ d hdin hdc

/-! ## Two tasks sharing a subtask id -/

/-- Task 1's subtask of id `100`: succeeds. -/
def subShared1 : Subtask := ⟨100, [], 0⟩

/-- Task 2's subtask of the same id `100`: fails. -/
def subShared2 : Subtask := ⟨100, [], 1⟩

def subOk2 : Subtask := ⟨101, [], 0⟩

/-- Task 2's subtask depending on id `100`. -/
def subDep2 : Subtask := ⟨102, [100], 0⟩

/-- Both tasks decomposed and executed once: task 1's `100` succeeded, task
2's `100` failed, yet `100` sits in the global completed set, so task 2's
dependent `102` was enqueued. -/
def sTwoA : SchedState :=
  (executeTask exF 2 2 (executeTask exF 1 1
    (decomposeTask 2 [subShared2, subOk2, subDep2] 0
      (decomposeTask 1 [subShared1] 0 (initState 4)))).1).1

/-- One more `execute` on task 2 dispatches the dependent `102`. -/
def sTwoB : SchedState := (executeTask exF 2 3 sTwoA).1

def infoTwo1 : TaskInfo := TaskInfo.mk [subShared1] .executing 0 0 none

def infoTwo2 : TaskInfo :=
  TaskInfo.mk [subShared2, subOk2, subDep2] .executing 0 0 none

def infoFail1 : TaskInfo := TaskInfo.mk [failSub] .executing 0 0 none

def infoMix : TaskInfo := TaskInfo.mk [failSub, depSub] .executing 0 0 none

def cycSubs : List Subtask := [⟨1, [2], 0⟩, ⟨2, [1], 0⟩]

/-- A registered cyclic submission. -/
def sCyc : SchedState := decomposeTask 1 cycSubs 0 (initState 4)

def infoCyc : TaskInfo := TaskInfo.mk cycSubs .decomposed 0 0 none

/-- C2 (amended): in a well-formed run, once `execute` has run to quiescence
for a task (its status is `executing` and no queue item of it remains),
every subtask's entry is terminal or the subtask is blocked: it is pending
with a dependency that is not globally completed and has no `success`
entry; and a subtask chained by dependencies to a `failure` entry of the
same task is pending and absent from the queue.  The original claim's
dispatch guard - never dispatch while a dependency lacks a `success`
entry - is refuted by `dispatched_despite_failed_dependency`: readiness
consults the global completed set, which another task sharing the id can
satisfy. -/
theorem execute_quiescent_blocked (ex : Subtask → Bool) (maxP : Nat)
    (s : SchedState) (hreach : ReachableU ex maxP s)
    (t : Nat) (info : TaskInfo) (htask : s.tasks t = some info)
    (hstat : info.status = TaskStatus.executing)
    (hqui : ∀ it ∈ s.queue, it.taskId ≠ t) :
    (∀ st ∈ info.subtasks,
      entryOf s t st.id = some ResultEntry.success ∨
      entryOf s t st.id = some ResultEntry.failure ∨
      (entryOf s t st.id = some ResultEntry.pending ∧
        ∃ d ∈ st.deps, d ∉ s.completedTasks ∧
          entryOf s t d ≠ some ResultEntry.success)) ∧
    (∀ st ∈ info.subtasks, ∀ f,
      Relation.TransGen (dependsOn info.subtasks) st.id f →
      entryOf s t f = some ResultEntry.failure →
      entryOf s t st.id = some ResultEntry.pending ∧
        ∀ it ∈ s.queue, it.subtask.id ≠ st.id) := by
  have hw := reachableU_winv ex maxP s hreach
  constructor
  · intro st hmem
    obtain ⟨e, he⟩ := entry_exists hw htask hmem
    cases e with
    | success => exact Or.inl he
    | failure => exact Or.inr (Or.inl he)
    | pending =>
      refine Or.inr (Or.inr ⟨he, ?_⟩)
      obtain ⟨d, hd, hdnc⟩ := hw.quiG t info htask hstat hqui st hmem he
      refine ⟨d, hd, hdnc, ?_⟩
      intro hds
      have hdid : d ∈ ids info.subtasks :=
        hw.closed t info htask st hmem d hd
      obtain ⟨std, hmd, hidd⟩ := exists_of_mem_ids hdid
      exact hdnc (hidd ▸ (hw.entrySet t info htask std hmd).1
        (by rw [hidd]; exact hds))
  · intro st hmem f hchain hf
    exact failed_ancestor_blocked hw htask hchain hf

/-- C2 counterexample: subtask `102` of task 2 is dispatched and succeeds
although its dependency `100` has a `failure` entry in task 2 throughout:
the readiness check was satisfied by task 1's success on the same id. -/
theorem dispatched_despite_failed_dependency :
    Reachable 4 sTwoB ∧
    (⟨2, subDep2, 2⟩ : QueueItem) ∈ sTwoA.queue ∧
    entryOf sTwoA 2 100 = some ResultEntry.failure ∧
    entryOf sTwoB 2 102 = some ResultEntry.success ∧
    entryOf sTwoB 2 100 = some ResultEntry.failure := by
  refine ⟨?_, by decide, by decide, by decide, by decide⟩
  exact Relation.ReflTransGen.tail (Relation.ReflTransGen.tail
    (Relation.ReflTransGen.tail (Relation.ReflTransGen.tail
      (Relation.ReflTransGen.single (Step.decompose 1 [subShared1] 0 _))
      (Step.decompose 2 [subShared2, subOk2, subDep2] 0 _))
      (Step.execute exF 1 1 _))
    (Step.execute exF 2 2 _))
    (Step.execute exF 2 3 _)

theorem execute_quiescent_blocked_witness :
    entryOf sFail1 1 failSub.id = some ResultEntry.success ∨
    entryOf sFail1 1 failSub.id = some ResultEntry.failure ∨
    (entryOf sFail1 1 failSub.id = some ResultEntry.pending ∧
      ∃ d ∈ failSub.deps, d ∉ sFail1.completedTasks ∧
        entryOf sFail1 1 d ≠ some ResultEntry.success) :=
  (execute_quiescent_blocked exF 4 sFail1
    (Relation.ReflTransGen.tail (Relation.ReflTransGen.single
      (StepU.decompose 1 [failSub] 0 (initState 4)
        ⟨rfl, by decide, fun t info h => Option.noConfusion h, by decide⟩))
      (StepU.execute 1 1 _))
    1 infoFail1 (by decide) rfl (by decide)).1 failSub (by decide)

/-- C3 (amended): `decompose_task` performs no validation whatsoever: every
submission, cyclic or with dangling dependency ids, is registered
unconditionally; no `DecompositionError`, `CyclicDependency` or
`InvalidDependency` outcome exists in the code.  What survives of the claim
is its last clause: in a well-formed run, no member of a self-dependent
(cyclic) dependency set of a registered task ever runs - its entry is still
`pending` in every reachable state. -/
theorem decompose_never_rejects (ex : Subtask → Bool) (maxP : Nat)
    (tid now : Nat) (subs : List Subtask) (s0 : SchedState)
    (s : SchedState) (hreach : ReachableU ex maxP s)
    (t : Nat) (info : TaskInfo) (htask : s.tasks t = some info)
    (cyc : List Nat)
    (hcyc : ∀ c ∈ cyc, ∃ st ∈ info.subtasks, st.id = c ∧
      ∃ d ∈ st.deps, d ∈ cyc) :
    (decomposeTask tid subs now s0).tasks tid =
      some (TaskInfo.mk subs .decomposed 0 now none) ∧
    ∀ c ∈ cyc, entryOf s t c = some ResultEntry.pending := by
  refine ⟨?_, cyc_pending (reachableU_winv ex maxP s hreach) htask cyc hcyc⟩
  rw [decomposeTask_tasks, if_pos rfl]

/-- C3 counterexample: a submission whose two subtasks depend on each other
is registered rather than rejected. -/
theorem cyclic_submission_registered :
    sCyc.tasks 1 = some (TaskInfo.mk cycSubs .decomposed 0 0 none) := by
  decide

theorem decompose_never_rejects_witness :
    ((decomposeTask 1 cycSubs 0 (initState 4)).tasks 1 =
      some (TaskInfo.mk cycSubs .decomposed 0 0 none)) ∧
    ∀ c ∈ [1, 2], entryOf sCyc 1 c = some ResultEntry.pending :=
  decompose_never_rejects exF 4 1 0 cycSubs (initState 4) sCyc
    (Relation.ReflTransGen.single (StepU.decompose 1 cycSubs 0 (initState 4)
      ⟨rfl, by decide, fun t info h => Option.noConfusion h, by decide⟩))
    1 infoCyc (by decide) [1, 2] (by decide)

/-- C5 (amended): in a well-formed run a queue item's dependencies are all
in the global completed set, and each has a `success` entry in the task
that owns the id - not necessarily the task of the queued item, which is
how `enqueued_despite_failed_dependency` refutes the claim as stated.  A
subtask chained by dependencies to a `failure` entry of its own task is
never enqueued and its entry is still `pending`. -/
theorem enqueue_needs_global_completion (ex : Subtask → Bool) (maxP : Nat)
    (s : SchedState) (hreach : ReachableU ex maxP s) :
    (∀ it ∈ s.queue, ∀ d ∈ it.subtask.deps, d ∈ s.completedTasks ∧
      ∃ t2 info2 st2, s.tasks t2 = some info2 ∧ st2 ∈ info2.subtasks ∧
        st2.id = d ∧ entryOf s t2 d = some ResultEntry.success) ∧
    (∀ t info, s.tasks t = some info → ∀ x f,
      Relation.TransGen (dependsOn info.subtasks) x f →
      entryOf s t f = some ResultEntry.failure →
      entryOf s t x = some ResultEntry.pending ∧
        ∀ it ∈ s.queue, it.subtask.id ≠ x) := by
  have hw := reachableU_winv ex maxP s hreach
  constructor
  · intro it hit d hd
    have hdc := hw.qdeps it hit d hd
    refine ⟨hdc, ?_⟩
    obtain ⟨t2, info2, st2, h2, m2, id2, -, hent⟩ := hw.compOwner d hdc
    exact ⟨t2, info2, st2, h2, m2, id2, hent⟩
  · intro t info htask x f hchain hf
    exact failed_ancestor_blocked hw htask hchain hf

/-- C5 counterexample: the item for subtask `102` sits in the queue although
its dependency `100` has a `failure` (not `success`) entry in the item's
own task. -/
theorem enqueued_despite_failed_dependency :
    Reachable 4 sTwoA ∧
    (⟨2, subDep2, 2⟩ : QueueItem) ∈ sTwoA.queue ∧
    (100 : Nat) ∈ subDep2.deps ∧
    entryOf sTwoA 2 100 = some ResultEntry.failure := by
  refine ⟨?_, by decide, by decide, by decide⟩
  exact Relation.ReflTransGen.tail (Relation.ReflTransGen.tail
    (Relation.ReflTransGen.tail
      (Relation.ReflTransGen.single (Step.decompose 1 [subShared1] 0 _))
      (Step.decompose 2 [subShared2, subOk2, subDep2] 0 _))
      (Step.execute exF 1 1 _))
    (Step.execute exF 2 2 _)

theorem enqueue_needs_global_completion_witness :
    entryOf sMix 1 11 = some ResultEntry.pending ∧
    ∀ it ∈ sMix.queue, it.subtask.id ≠ 11 :=
  (enqueue_needs_global_completion exF 4 sMix
    (Relation.ReflTransGen.tail (Relation.ReflTransGen.single
      (StepU.decompose 1 [failSub, depSub] 0 (initState 4)
        ⟨rfl, by decide, fun t info h => Option.noConfusion h, by decide⟩))
      (StepU.execute 1 1 _))).2
    1 infoMix (by decide) 11 10
    (Relation.TransGen.single ⟨depSub, by decide, rfl, by decide⟩)
    (by decide)

/-- C9: completion and failure bookkeeping is global and keyed by subtask
id alone: the dependency-readiness check of `_queue_dependent_subtasks`
consults only the scheduler-global completed set, whoever put the id there,
and the `failed_subtasks` count of `get_task_status` counts any result key
that is in the scheduler-global failed set, whichever task recorded the
failure. -/
theorem bookkeeping_is_global (now c : Nat) (s : SchedState)
    (tq : Nat) (infoQ : TaskInfo) (st : Subtask)
    (htaskQ : s.tasks tq = some infoQ) (hmem : st ∈ infoQ.subtasks)
    (hdeps : ∀ d ∈ depsOf infoQ.subtasks st.id, d ∈ s.completedTasks)
    (hnc : st.id ∉ s.completedTasks) (hnf : st.id ∉ s.failedTasks)
    (tr : Nat) (infoR : TaskInfo) (rmR : ResultMap)
    (htaskR : s.tasks tr = some infoR) (hrmR : s.results tr = some rmR)
    (x : Nat) (hx : x ∈ s.failedTasks) (hxk : x ∈ rmR.map (·.1)) :
    (∃ it ∈ (queueDependentSubtasks tq c now s).queue,
      it.subtask.id = st.id) ∧
    ∃ n, (getTaskStatus tr now s).2.failedOf = some n ∧ 0 < n := by
  constructor
  · exact QD_complete tq c now s infoQ st htaskQ hmem hnc hnf hdeps
  · refine ⟨countFailed s.failedTasks rmR, ?_, ?_⟩
    · rw [getTaskStatus_some tr now s infoR rmR htaskR hrmR]
      rfl
    · unfold countFailed
      obtain ⟨p, hp, hpx⟩ := List.mem_map.1 hxk
      refine List.countP_pos.2 ⟨p, hp, ?_⟩
      exact decide_eq_true (hpx ▸ hx)

theorem bookkeeping_is_global_witness :
    (∃ it ∈ (queueDependentSubtasks 2 100 9 sTwoA).queue,
      it.subtask.id = subDep2.id) ∧
    ∃ n, (getTaskStatus 1 9 sTwoA).2.failedOf = some n ∧ 0 < n :=
  bookkeeping_is_global 9 100 sTwoA 2 infoTwo2 subDep2 (by decide)
    (by decide) (by decide) (by decide) (by decide) 1 infoTwo1
    [(100, ResultEntry.success)] (by decide) (by decide) 100
    (by decide) (by decide)

theorem subtask_failure_contained_witness :
    ((processTaskQueue exF (some 1) 1 sQueued).2 =
      ExecView.running
        (processTaskQueue exF (some 1) 1 sQueued).1.queue.length
        (snapOf (some 1) sQueued).length) ∧
    ∀ it ∈ snapOf (some 1) sQueued,
      entryOf (processTaskQueue exF (some 1) 1 sQueued).1 it.taskId
          it.subtask.id =
        some (if exF it.subtask then ResultEntry.success
          else ResultEntry.failure) ∧
      (exF it.subtask = false →
        it.subtask.id ∈
          (processTaskQueue exF (some 1) 1 sQueued).1.failedTasks) ∧
      (exF it.subtask = true →
        it.subtask.id ∈
          (processTaskQueue exF (some 1) 1 sQueued).1.completedTasks) :=
  subtask_failure_contained exF 1 1 sQueued (by decide)

end PPS
